import Mathlib

/-!
Verification of the `limited-pubsub` (topico) library: a shallow embedding of
`src/index.js` together with the behaviour of its two external collaborators
(`mitt`, the broadcast primitive, whose `emit` invokes each handler
synchronously over a copy of the handler array, and `ulid`, a generator of
fresh unique strings, modelled by a counter).

JavaScript values are embedded as `JSVal`; the module-level mutable state of
`index.js` (the `validTopics` array, the `topicEnum` object, the `mitt`
handler table, pending timers, Node's `process.nextTick` queue, the promises
created by `request`) is a `Sys` record; every public operation is a state
transformer, and a run of the library is a fold of commands over `Sys`.
User callbacks are opaque: they are identified by a numeric id and invoking
one appends an entry to an invocation log.
-/

/-- Embedding of the JavaScript values this library manipulates.  `sym name id`
is a `Symbol(name)` with identity `id` (two symbols are the same JS value iff
both fields agree); `reqPayload tn q` is the plain object
`\x7b trackingNo: tn, query: q \x7d` that `request` publishes. -/
inductive JSVal where
  | undef
  | nullV
  | bool (b : Bool)
  | num (n : Int)
  | str (s : String)
  | sym (name : String) (id : Nat)
  | reqPayload (trackingNo : String) (query : JSVal)
deriving Repr, DecidableEq

/-- JS truthiness of the embedded values. -/
def truthy : JSVal → Bool
  | .undef => false
  | .nullV => false
  | .bool b => b
  | .num n => n != 0
  | .str s => s != ""
  | .sym _ _ => true
  | .reqPayload _ _ => true

/-- JS `toString()` of the embedded values (`Symbol.prototype.toString`
produces `Symbol(name)`; a plain object stringifies as `[object Object]`). -/
def jsToString : JSVal → String
  | .undef => "undefined"
  | .nullV => "null"
  | .bool b => if b then "true" else "false"
  | .num n => toString n
  | .str s => s
  | .sym n _ => "Symbol(" ++ n ++ ")"
  | .reqPayload _ _ => "[object Object]"

/-- JS strict equality `===` restricted to how the library uses it
(`listenFor` compares a published payload against a primitive value).  Two
plain objects are compared by reference; every `reqPayload` is a freshly
allocated object, so an object is never `===` to anything here. -/
def strictEq : JSVal → JSVal → Bool
  | .reqPayload _ _, _ => false
  | _, .reqPayload _ _ => false
  | a, b => a == b

/-- `typeof v` is a primitive type accepted by `listenFor` (boolean, number,
string, bigint, symbol) and `v` is not `null`/`undefined`. -/
def isPrimitive : JSVal → Bool
  | .bool _ => true
  | .num _ => true
  | .str _ => true
  | .sym _ _ => true
  | _ => false

/-- `validate` from `src/index.js` lines 69-81: stringify the argument (falsy
values become the empty string) and return the first name in `validTopics`
whose `Symbol(name)` form matches, otherwise `null`. -/
def validate (validTopics : List String) (topic : JSVal) : Option String :=
  let topicName := if truthy topic then jsToString topic else ""
  if topicName.length > 0 then
    match validTopics.filter (fun key => topicName == "Symbol(" ++ key ++ ")") with
    | [] => none
    | m :: _ => some m
  else none

/-- `createTopicEnumeration` from `src/index.js` lines 48-60: walk the topic
names in order, carrying over the value an existing enumeration already holds
for a name and minting a fresh `Symbol(name)` otherwise.  The `Nat` argument
threads the supply of fresh symbol identities. -/
def createTopicEnumeration (existing : List (String × JSVal)) :
    List String → Nat → List (String × JSVal) × Nat
  | [], ctr => ([], ctr)
  | n :: rest, ctr =>
    match existing.lookup n with
    | some v =>
      let p := createTopicEnumeration existing rest ctr
      ((n, v) :: p.1, p.2)
    | none =>
      let p := createTopicEnumeration existing rest (ctr + 1)
      ((n, JSVal.sym n ctr) :: p.1, p.2)

/-- The errors the library can raise or reject with. -/
inductive JSErr where
  | invalidTopic (op : String)
  | invalidArg (op : String)
  | notPrimitive
  | timeout
deriving Repr, DecidableEq

/-- Settlement state of the promise returned by `request`. -/
inductive PromiseState where
  | pending
  | resolved (v : JSVal)
  | rejected (e : JSErr)
deriving Repr, DecidableEq

/-- One pending or settled request: the promise identity `id`, the tracking
number published in its payload, and the promise state. -/
structure ReqRec where
  id : Nat
  trackingNo : String
  state : PromiseState
deriving Repr, DecidableEq

/-- One `setTimeout` watchdog armed by `request`. -/
structure Timer where
  deadline : Int
  reqId : Nat
  active : Bool
deriving Repr, DecidableEq

/-- A handler stored in the mitt table: a user callback (with the
`__onlyOnce__` flag `listenOnce` attaches), the closure `listenFor` builds
around a user callback, or the correlation listener `request` registers under
its tracking number. -/
inductive Handler where
  | user (cid : Nat) (onlyOnce : Bool)
  | forValue (topicName : String) (value : JSVal) (cid : Nat) (fnId : Nat)
  | correlation (reqId : Nat) (trackingNo : String)
deriving Repr, DecidableEq

/-- A task queued with `process.nextTick`. -/
inductive Tick where
  | invokeUser (cid : Nat)
  | deleteKey (k : String)
deriving Repr, DecidableEq

/-- The module-level state of `index.js` plus its collaborators. -/
structure Sys where
  validTopics : List String
  topicEnum : List (String × JSVal)
  symCtr : Nat
  requestTTL : Int
  table : List (String × List Handler)
  uidCtr : Nat
  fnCtr : Nat
  reqs : List ReqRec
  ticks : List Tick
  timers : List Timer
  now : Int
  log : List (Nat × JSVal)
deriving Repr, DecidableEq

/-- The two built-in topics of `src/index.js` lines 12-24. -/
def initialValidTopics : List String := ["INFO", "ERROR"]

/-- The state right after `new TopicalPubSub()` (constructor, line 85). -/
def initTopico : Sys :=
  let p := createTopicEnumeration [] initialValidTopics 0
  { validTopics := initialValidTopics
    topicEnum := p.1
    symCtr := p.2
    requestTTL := 4200
    table := []
    uidCtr := 0
    fnCtr := 0
    reqs := []
    ticks := []
    timers := []
    now := 0
    log := [] }

/-- Apply `f` to the handler array stored under key `k` (mitt keeps entries
keyed by event name). -/
def updTable (t : List (String × List Handler)) (k : String)
    (f : List Handler → List Handler) : List (String × List Handler) :=
  t.map (fun kv => if kv.1 = k then (kv.1, f kv.2) else kv)

/-- mitt `on`: push onto the existing array for the key, or create one. -/
def tableOn (t : List (String × List Handler)) (k : String) (h : Handler) :
    List (String × List Handler) :=
  match t.lookup k with
  | some _ => updTable t k (fun hs => hs ++ [h])
  | none => t ++ [(k, [h])]

/-- Remove the first occurrence of `h` (mitt `off` uses `indexOf`/`splice`). -/
def removeFirst (h : Handler) : List Handler → List Handler
  | [] => []
  | x :: xs => if x = h then xs else x :: removeFirst h xs

/-- mitt `off`: drop the first matching handler under the key; a missing key
is a no-op. -/
def tableOff (t : List (String × List Handler)) (k : String) (h : Handler) :
    List (String × List Handler) :=
  updTable t k (removeFirst h)

/-- `pubsub.all.delete(k)`. -/
def tableDelete (t : List (String × List Handler)) (k : String) :
    List (String × List Handler) :=
  t.filter (fun kv => kv.1 != k)

/-- Resolve the promise of request `rid` with `v`; a promise settles at most
once, so an already-settled record is left alone (JS `Promise` semantics). -/
def settleResolveL (rs : List ReqRec) (rid : Nat) (v : JSVal) : List ReqRec :=
  rs.map (fun r =>
    if r.id = rid ∧ r.state = PromiseState.pending then
      { r with state := .resolved v }
    else r)

/-- Reject the promise of request `rid` with `e`; settle-once as above. -/
def settleRejectL (rs : List ReqRec) (rid : Nat) (e : JSErr) : List ReqRec :=
  rs.map (fun r =>
    if r.id = rid ∧ r.state = PromiseState.pending then
      { r with state := .rejected e }
    else r)

/-- `clearTimeout(watchdog)` for the watchdog of request `rid`. -/
def clearWatchdog (ts : List Timer) (rid : Nat) : List Timer :=
  ts.map (fun t => if t.reqId = rid then { t with active := false } else t)

/-- Run one handler on a published payload.  A user callback just records its
invocation; the `listenFor` closure (lines 240-245) defers its callback with
`process.nextTick` and unsubscribes itself when the payload matches; the
correlation listener of `request` (lines 369-390) clears the watchdog,
resolves the promise (a no-op if it already settled) and queues deletion of
its own key for the next tick. -/
def invokeHandler (s : Sys) (payload : JSVal) : Handler → Sys
  | .user cid _ => { s with log := s.log ++ [(cid, payload)] }
  | .forValue tname v cid fid =>
    if strictEq payload v then
      let s1 := { s with ticks := s.ticks ++ [Tick.invokeUser cid] }
      { s1 with table := tableOff s1.table tname (.forValue tname v cid fid) }
    else s
  | .correlation rid tn =>
    let s1 := { s with timers := clearWatchdog s.timers rid }
    let s2 := { s1 with reqs := settleResolveL s1.reqs rid payload }
    { s2 with ticks := s2.ticks ++ [Tick.deleteKey tn] }

/-- The `__onlyOnce__` flag test `say` performs on each registered handler
(only a user callback registered through `listenOnce` carries it). -/
def isOnceH : Handler → Bool
  | .user _ once => once
  | _ => false

/-- mitt `emit`: take the handler array for the key and invoke every handler
in it synchronously, iterating over a copy, so handlers removed during the
emit still run. -/
def emit (s : Sys) (k : String) (payload : JSVal) : Sys :=
  match s.table.lookup k with
  | none => s
  | some hs => hs.foldl (fun acc h => invokeHandler acc payload h) s

/-- `say` lines 259-281: validate, emit synchronously, then remove every
handler flagged `__onlyOnce__` for the topic. -/
def sayStep (s : Sys) (topic payload : JSVal) : Option JSErr × Sys :=
  match validate s.validTopics topic with
  | none => (some (.invalidTopic "say"), s)
  | some name =>
    let s1 := emit s name payload
    match s1.table.lookup name with
    | none => (none, s1)
    | some hs =>
      (none,
       (hs.filter isOnceH).foldl
         (fun acc fn => { acc with table := tableOff acc.table name fn }) s1)

/-- The tracking numbers the `ulid` collaborator mints, one per counter
value; distinct counters give distinct strings. -/
def mkUid (n : Nat) : String := "uid" ++ toString n

/-- `listen` lines 155-168. -/
def listenStep (s : Sys) (topic : JSVal) (cid : Nat) : Option JSErr × Sys :=
  match validate s.validTopics topic with
  | none => (some (.invalidTopic "listen"), s)
  | some name => (none, { s with table := tableOn s.table name (.user cid false) })

/-- `listenOnce` lines 179-198: the callback is tagged `__onlyOnce__` and
registered like any other. -/
def listenOnceStep (s : Sys) (topic : JSVal) (cid : Nat) : Option JSErr × Sys :=
  match validate s.validTopics topic with
  | none => (some (.invalidTopic "listenOnce"), s)
  | some name => (none, { s with table := tableOn s.table name (.user cid true) })

/-- `listenFor` lines 212-248: validate the topic, require a primitive value,
then register the matching closure (a fresh function object each call). -/
def listenForStep (s : Sys) (topic value : JSVal) (cid : Nat) : Option JSErr × Sys :=
  match validate s.validTopics topic with
  | none => (some (.invalidTopic "listenFor"), s)
  | some name =>
    if isPrimitive value then
      (none,
       { s with
         table := tableOn s.table name (.forValue name value cid s.fnCtr)
         fnCtr := s.fnCtr + 1 })
    else (some .notPrimitive, s)

/-- `cancel` lines 290-299. -/
def cancelStep (s : Sys) (topic : JSVal) : Option JSErr × Sys :=
  match validate s.validTopics topic with
  | none => (some (.invalidTopic "cancel"), s)
  | some name => (none, { s with table := tableDelete s.table name })

/-- JS `String.prototype.toUpperCase`, character-wise (the library only ever
compares names it upper-cased itself, so the ASCII-faithful character map
suffices). -/
def jsToUpper (s : String) : String := ⟨s.data.map Char.toUpper⟩

/-- `addTopic` inner loop (lines 129-141): each element must be a string (the
code checks `name == null || name.toString() !== name`, which only a primitive
string passes); valid names are upper-cased and pushed unless already present;
the first invalid element throws, after the earlier pushes already happened. -/
def addTopicLoop : List String → List JSVal → Option JSErr × List String
  | vt, [] => (none, vt)
  | vt, v :: rest =>
    match v with
    | .str s =>
      let f := jsToUpper s
      addTopicLoop (if f ∈ vt then vt else vt ++ [f]) rest
    | _ => (some (.invalidArg "addTopic"), vt)

/-- The argument of `addTopic`: one value or an array of values. -/
inductive AddArg where
  | one (v : JSVal)
  | many (vs : List JSVal)
deriving Repr, DecidableEq

/-- `addTopic` argument normalisation (lines 121-127): `Array.isArray` check
followed by `Array.from` or wrapping in a one-element array. -/
def addTopicNames : AddArg → List JSVal
  | .many vs => vs
  | .one v => [v]

/-- The tail of `addTopic` (lines 129-143): when the loop threw, the partially
grown `validTopics` persists but `topicEnum` is untouched; when every name was
processed, the enumeration is regenerated (line 143). -/
def addTopicFinish (s : Sys) : Option JSErr × List String → Option JSErr × Sys
  | (some e, vt) => (some e, { s with validTopics := vt })
  | (none, vt) =>
    let p := createTopicEnumeration s.topicEnum vt s.symCtr
    (none, { s with validTopics := vt, topicEnum := p.1, symCtr := p.2 })

/-- `addTopic` lines 120-144: normalise the argument to an array, run the
loop, and only on success regenerate the enumeration. -/
def addTopicStep (s : Sys) (arg : AddArg) : Option JSErr × Sys :=
  addTopicFinish s (addTopicLoop s.validTopics (addTopicNames arg))

/-- `request` lines 323-394: the executor runs synchronously inside
`new Promise`; a validation failure thrown there is caught by the Promise
constructor and becomes a rejection.  Otherwise mint a tracking number, arm
the watchdog for `requestTTL`, register the correlation listener *before*
publishing, and publish the payload through `say`. -/
def requestStep (s : Sys) (topic query : JSVal) (rid : Nat) : Option JSErr × Sys :=
  match validate s.validTopics topic with
  | none =>
    (none, { s with reqs := s.reqs ++ [⟨rid, "", .rejected (.invalidTopic "request")⟩] })
  | some _ =>
    let tn := mkUid s.uidCtr
    let s1 :=
      { s with
        uidCtr := s.uidCtr + 1
        reqs := s.reqs ++ [(⟨rid, tn, .pending⟩ : ReqRec)]
        timers := s.timers ++ [(⟨s.now + s.requestTTL, rid, true⟩ : Timer)] }
    let s2 := { s1 with table := tableOn s1.table tn (.correlation rid tn) }
    (none, (sayStep s2 topic (.reqPayload tn query)).2)

/-- `respond` lines 407-410: a bare `emit` keyed by the tracking number. -/
def respondStep (s : Sys) (tn : String) (answer : JSVal) : Sys :=
  emit s tn answer

/-- Let `d` units of time pass: every armed watchdog whose deadline is
reached fires (rejecting its request with the timeout error, lines 357-363)
and is spent. -/
def advanceStep (s : Sys) (d : Nat) : Sys :=
  let n2 := s.now + (d : Int)
  let due := s.timers.filter (fun t => t.active && decide (t.deadline ≤ n2))
  { s with
    now := n2
    timers := s.timers.map (fun t =>
      if t.active && decide (t.deadline ≤ n2) then { t with active := false } else t)
    reqs := due.foldl (fun rs t => settleRejectL rs t.reqId .timeout) s.reqs }

/-- Drain the `process.nextTick` queue: deferred `listenFor` callbacks run
(with no argument, hence `undefined`), and the correlation listener cleanup
deletes its key from the table. -/
def runTicksStep (s : Sys) : Sys :=
  s.ticks.foldl
    (fun acc t =>
      match t with
      | .invokeUser cid => { acc with log := acc.log ++ [(cid, JSVal.undef)] }
      | .deleteKey k => { acc with table := tableDelete acc.table k })
    { s with ticks := [] }

/-- The observable events a client can drive the library with, plus the
passage of time and the draining of the microtask queue. -/
inductive Cmd where
  | addTopic (arg : AddArg)
  | listen (topic : JSVal) (cid : Nat)
  | listenOnce (topic : JSVal) (cid : Nat)
  | listenFor (topic : JSVal) (value : JSVal) (cid : Nat)
  | say (topic payload : JSVal)
  | cancel (topic : JSVal)
  | cancelAll
  | request (topic query : JSVal) (rid : Nat)
  | respond (tn : String) (answer : JSVal)
  | runTicks
  | advance (d : Nat)
deriving Repr, DecidableEq

/-- One step of the machine, returning the synchronously thrown error (if
any) next to the successor state. -/
def stepE (s : Sys) : Cmd → Option JSErr × Sys
  | .addTopic a => addTopicStep s a
  | .listen t cid => listenStep s t cid
  | .listenOnce t cid => listenOnceStep s t cid
  | .listenFor t v cid => listenForStep s t v cid
  | .say t p => sayStep s t p
  | .cancel t => cancelStep s t
  | .cancelAll => (none, { s with table := [] })
  | .request t q rid => requestStep s t q rid
  | .respond tn a => (none, respondStep s tn a)
  | .runTicks => (none, runTicksStep s)
  | .advance d => (none, advanceStep s d)

/-- The state after a command, discarding the thrown error. -/
def step (s : Sys) (c : Cmd) : Sys := (stepE s c).2

/-- A run of the library: fold a list of commands. -/
def run (s : Sys) (cs : List Cmd) : Sys := cs.foldl step s

/-- Look up a request record by promise identity. -/
def lookupReq (s : Sys) (rid : Nat) : Option ReqRec :=
  s.reqs.find? (fun r => r.id == rid)

/-- The registry token for the INFO topic in the initial state. -/
def infoTok : JSVal := .sym "INFO" 0

/-! ## Helper lemmas about the topic enumeration -/

lemma cte_keys (ex : List (String × JSVal)) (ns : List String) (c : Nat) :
    ((createTopicEnumeration ex ns c).1).map Prod.fst = ns := by
  induction ns generalizing c with
  | nil => rfl
  | cons n rest ih =>
    simp only [createTopicEnumeration]
    cases h : ex.lookup n <;> simp [h, ih]

lemma cte_lookup_carried (ex : List (String × JSVal)) (ns : List String) (c : Nat)
    (n : String) (tok : JSVal) (hmem : n ∈ ns) (hold : ex.lookup n = some tok) :
    ((createTopicEnumeration ex ns c).1).lookup n = some tok := by
  induction ns generalizing c with
  | nil => cases hmem
  | cons m rest ih =>
    by_cases hmn : m = n
    · subst hmn
      simp only [createTopicEnumeration, hold]
      simp [List.lookup]
    · have hnm : (n == m) = false := beq_eq_false_iff_ne.mpr (fun h => hmn h.symm)
      have hmem2 : n ∈ rest := by
        rcases List.mem_cons.mp hmem with h | h
        · exact absurd h.symm hmn
        · exact h
      simp only [createTopicEnumeration]
      cases h : ex.lookup m with
      | none => simp [List.lookup, hnm, ih (c + 1) hmem2]
      | some v => simp [List.lookup, hnm, ih c hmem2]

lemma cte_lookup_mem (ex : List (String × JSVal)) (ns : List String) (c : Nat)
    (n : String) (hmem : n ∈ ns) :
    (((createTopicEnumeration ex ns c).1).lookup n).isSome := by
  induction ns generalizing c with
  | nil => cases hmem
  | cons m rest ih =>
    by_cases hmn : m = n
    · subst hmn
      simp only [createTopicEnumeration]
      cases h : ex.lookup m <;> simp [List.lookup]
    · have hnm : (n == m) = false := beq_eq_false_iff_ne.mpr (fun h => hmn h.symm)
      have hmem2 : n ∈ rest := by
        rcases List.mem_cons.mp hmem with h | h
        · exact absurd h.symm hmn
        · exact h
      simp only [createTopicEnumeration]
      cases h : ex.lookup m with
      | none => simp [List.lookup, hnm, ih (c + 1) hmem2]
      | some v => simp [List.lookup, hnm, ih c hmem2]

lemma cte_all_present (ex : List (String × JSVal)) (ns : List String) (c : Nat)
    (h : ∀ n ∈ ns, (ex.lookup n).isSome) :
    createTopicEnumeration ex ns c =
      (ns.map (fun n => (n, (ex.lookup n).getD JSVal.undef)), c) := by
  induction ns generalizing c with
  | nil => rfl
  | cons n rest ih =>
    have hn := h n (List.mem_cons_self n rest)
    cases hl : ex.lookup n with
    | none => rw [hl] at hn; simp at hn
    | some v =>
      simp only [createTopicEnumeration, hl]
      rw [ih c (fun m hm => h m (List.mem_cons_of_mem _ hm))]
      simp [hl]

lemma cte_refold (ex : List (String × JSVal)) (ns : List String) (c : Nat)
    (hnd : ns.Nodup) :
    ns.map (fun n =>
        (n, ((((createTopicEnumeration ex ns c).1).lookup n).getD JSVal.undef))) =
      (createTopicEnumeration ex ns c).1 := by
  induction ns generalizing c with
  | nil => rfl
  | cons n rest ih =>
    obtain ⟨hnin, hnd2⟩ := List.nodup_cons.mp hnd
    have hcongr : ∀ (tail : List (String × JSVal)) (v : JSVal),
        rest.map (fun m => (m, ((((n, v) :: tail).lookup m).getD JSVal.undef))) =
          rest.map (fun m => (m, ((tail.lookup m).getD JSVal.undef))) := by
      intro tail v
      apply List.map_congr_left
      intro m hm
      have hmn : (m == n) = false :=
        beq_eq_false_iff_ne.mpr (fun h => hnin (h ▸ hm))
      simp [List.lookup, hmn]
    cases hl : ex.lookup n with
    | some v =>
      simp only [createTopicEnumeration, hl, List.map_cons]
      rw [hcongr, ih c hnd2]
      simp [List.lookup]
    | none =>
      simp only [createTopicEnumeration, hl, List.map_cons]
      rw [hcongr, ih (c + 1) hnd2]
      simp [List.lookup]

/-! ## Helper lemmas about `validate` -/

lemma symbolForm_inj {a b : String}
    (h : "Symbol(" ++ a ++ ")" = "Symbol(" ++ b ++ ")") : a = b := by
  have hd := congrArg String.data h
  simp only [String.data_append] at hd
  exact String.ext (List.append_cancel_left (List.append_cancel_right hd))

lemma symbolForm_length (k : String) :
    ("Symbol(" ++ k ++ ")").length = 7 + k.length + 1 := by
  rw [String.length_append, String.length_append]
  have h7 : ("Symbol(" : String).length = 7 := rfl
  have h1 : (")" : String).length = 1 := rfl
  omega

lemma symbolForm_ne_empty (k : String) : ("Symbol(" ++ k ++ ")" : String) ≠ "" := by
  intro h
  have hl := congrArg String.length h
  rw [symbolForm_length] at hl
  have h0 : ("" : String).length = 0 := rfl
  omega

lemma length_pos_of_ne_empty (s : String) (h : s ≠ "") : 0 < s.length := by
  cases s with
  | mk data =>
    cases data with
    | nil => exact absurd rfl h
    | cons c cs => simp [String.length]

lemma filter_symbolForm (vt : List String) (k : String) (hnd : vt.Nodup)
    (hk : k ∈ vt) :
    vt.filter (fun key => ("Symbol(" ++ k ++ ")" : String) == "Symbol(" ++ key ++ ")") =
      [k] := by
  induction vt with
  | nil => cases hk
  | cons a rest ih =>
    obtain ⟨hnin, hnd2⟩ := List.nodup_cons.mp hnd
    by_cases hak : a = k
    · subst hak
      have hrest : rest.filter
          (fun key => ("Symbol(" ++ a ++ ")" : String) == "Symbol(" ++ key ++ ")") = [] := by
        rw [List.filter_eq_nil_iff]
        intro b hb hpb
        exact hnin ((symbolForm_inj (by exact beq_iff_eq.mp hpb)) ▸ hb)
      simp [List.filter_cons, hrest]
    · have hpred : (("Symbol(" ++ k ++ ")" : String) == "Symbol(" ++ a ++ ")") = false := by
        rw [beq_eq_false_iff_ne]
        intro hcontra
        exact hak (symbolForm_inj hcontra).symm
      have hkrest : k ∈ rest := by
        rcases List.mem_cons.mp hk with h | h
        · exact absurd h.symm hak
        · exact h
      simp [List.filter_cons, hpred, ih hnd2 hkrest]

lemma validate_of_symbolForm (vt : List String) (k : String) (hnd : vt.Nodup)
    (hk : k ∈ vt) (v : JSVal) (htru : truthy v = true)
    (hstr : jsToString v = "Symbol(" ++ k ++ ")") :
    validate vt v = some k := by
  unfold validate
  rw [htru]
  simp only [if_true, hstr]
  have hlen : 0 < ("Symbol(" ++ k ++ ")").length := by
    rw [symbolForm_length]; omega
  rw [if_pos hlen, filter_symbolForm vt k hnd hk]

/-! ## `addTopic`: idempotence, token stability, error atomicity -/

lemma addTopicStep_one_str (s : Sys) (n : String) :
    addTopicStep s (AddArg.one (JSVal.str n)) =
      (none,
       { s with
         validTopics :=
           if jsToUpper n ∈ s.validTopics then s.validTopics
           else s.validTopics ++ [jsToUpper n]
         topicEnum :=
           (createTopicEnumeration s.topicEnum
             (if jsToUpper n ∈ s.validTopics then s.validTopics
              else s.validTopics ++ [jsToUpper n]) s.symCtr).1
         symCtr :=
           (createTopicEnumeration s.topicEnum
             (if jsToUpper n ∈ s.validTopics then s.validTopics
              else s.validTopics ++ [jsToUpper n]) s.symCtr).2 }) := rfl

lemma addTopicStep_noop (s2 : Sys) (n : String)
    (hmem : jsToUpper n ∈ s2.validTopics)
    (hpres : ∀ m ∈ s2.validTopics, (s2.topicEnum.lookup m).isSome)
    (hfold : s2.validTopics.map
        (fun m => (m, ((s2.topicEnum.lookup m).getD JSVal.undef))) = s2.topicEnum) :
    addTopicStep s2 (AddArg.one (JSVal.str n)) = (none, s2) := by
  rw [addTopicStep_one_str]
  have hall := cte_all_present s2.topicEnum s2.validTopics s2.symCtr hpres
  simp only [if_pos hmem, hall, hfold]

/-- Claim C7: for every valid (string) name `n`, `addTopic(n)` yields exactly
one entry in the enumeration for the upper-cased name, the call reports no
error (duplicates are silently skipped), and repeating the same `addTopic`
returns the very same state, so in particular the entry and its token are
unchanged by any number of repetitions. -/
theorem c7_addTopic_idempotent (s : Sys) (hnd : s.validTopics.Nodup) (n : String) :
    (addTopicStep s (AddArg.one (JSVal.str n))).1 = none ∧
    ((addTopicStep s (AddArg.one (JSVal.str n))).2.topicEnum.map Prod.fst).count
      (jsToUpper n) = 1 ∧
    addTopicStep (addTopicStep s (AddArg.one (JSVal.str n))).2
        (AddArg.one (JSVal.str n)) =
      (none, (addTopicStep s (AddArg.one (JSVal.str n))).2) := by
  have hbase := addTopicStep_one_str s n
  set u := jsToUpper n with hu
  set vt2 : List String :=
    if u ∈ s.validTopics then s.validTopics else s.validTopics ++ [u] with hvt2
  have hvt2nd : vt2.Nodup := by
    rw [hvt2]
    by_cases hm : u ∈ s.validTopics
    · simpa [hm] using hnd
    · simp only [hm, if_false]
      rw [List.nodup_append]
      exact ⟨hnd, List.nodup_singleton u, by simpa using hm⟩
  have hvt2mem : u ∈ vt2 := by
    rw [hvt2]
    by_cases hm : u ∈ s.validTopics
    · simp [hm]
    · simp [hm]
  refine ⟨by rw [hbase], ?_, ?_⟩
  · rw [hbase]
    show ((createTopicEnumeration s.topicEnum vt2 s.symCtr).1.map Prod.fst).count u = 1
    rw [cte_keys]
    exact List.count_eq_one_of_mem hvt2nd hvt2mem
  · rw [hbase]
    apply addTopicStep_noop
    · exact hvt2mem
    · intro m hm
      exact cte_lookup_mem s.topicEnum vt2 s.symCtr m hm
    · exact cte_refold s.topicEnum vt2 s.symCtr hvt2nd

/-- Closed witness for C7: the idempotence theorem applied to the initial
registry and the name `test`, whose hypotheses hold by computation. -/
theorem c7_addTopic_idempotent_witness :
    initTopico.validTopics.Nodup ∧
    ((addTopicStep initTopico (AddArg.one (JSVal.str "test"))).1 = none ∧
     ((addTopicStep initTopico
        (AddArg.one (JSVal.str "test"))).2.topicEnum.map Prod.fst).count
        (jsToUpper "test") = 1 ∧
     addTopicStep (addTopicStep initTopico (AddArg.one (JSVal.str "test"))).2
         (AddArg.one (JSVal.str "test")) =
       (none, (addTopicStep initTopico (AddArg.one (JSVal.str "test"))).2)) :=
  ⟨by decide, c7_addTopic_idempotent initTopico (by decide) "test"⟩

/-- Claim C8: a previously issued token survives any later `addTopic` of a
single (string) name: the new enumeration maps the old name to the identical
token value, so registry growth never invalidates or replaces issued tokens. -/
theorem c8_tokens_stable_under_growth (s : Sys) (nm m : String) (tok : JSVal)
    (hmem : nm ∈ s.validTopics) (hold : s.topicEnum.lookup nm = some tok) :
    (addTopicStep s (AddArg.one (JSVal.str m))).1 = none ∧
    (addTopicStep s (AddArg.one (JSVal.str m))).2.topicEnum.lookup nm = some tok := by
  rw [addTopicStep_one_str]
  refine ⟨rfl, ?_⟩
  apply cte_lookup_carried
  · by_cases hm2 : jsToUpper m ∈ s.validTopics
    · simpa [hm2] using hmem
    · simp only [hm2, if_false]
      exact List.mem_append_left _ hmem
  · exact hold

/-- Closed witness for C8: adding the unrelated topic `audit` leaves the
INFO token identical to its prior value. -/
theorem c8_tokens_stable_under_growth_witness :
    ("INFO" ∈ initTopico.validTopics ∧
      initTopico.topicEnum.lookup "INFO" = some (JSVal.sym "INFO" 0)) ∧
    ((addTopicStep initTopico (AddArg.one (JSVal.str "audit"))).1 = none ∧
     (addTopicStep initTopico
        (AddArg.one (JSVal.str "audit"))).2.topicEnum.lookup "INFO" =
       some (JSVal.sym "INFO" 0)) :=
  ⟨⟨by decide, by decide⟩,
   c8_tokens_stable_under_growth initTopico "INFO" "audit" (JSVal.sym "INFO" 0)
     (by decide) (by decide)⟩

/-- Claim C10: whenever `addTopic` throws `InvalidArgument` part-way through
its argument list, the publicly visible `topics` snapshot and the symbol
supply are untouched, because the enumeration is regenerated only after the
whole list was processed. -/
theorem c10_snapshot_unchanged_on_error (s : Sys) (arg : AddArg) (e : JSErr)
    (h : (addTopicStep s arg).1 = some e) :
    (addTopicStep s arg).2.topicEnum = s.topicEnum ∧
    (addTopicStep s arg).2.symCtr = s.symCtr := by
  revert h
  unfold addTopicStep
  cases hl : addTopicLoop s.validTopics (addTopicNames arg) with
  | mk oe vt =>
    cases oe with
    | none => intro h; simp [addTopicFinish] at h
    | some e2 => intro h; exact ⟨rfl, rfl⟩

/-- Closed witness for C10: `addTopic(["GOOD", null])` throws after pushing
the valid prefix name, yet the enumeration snapshot is the identical object
(the `validTopics` list did grow, showing the call was genuinely partial). -/
theorem c10_snapshot_unchanged_on_error_witness :
    (addTopicStep initTopico (AddArg.many [JSVal.str "GOOD", JSVal.nullV])).1 =
      some (JSErr.invalidArg "addTopic") ∧
    (addTopicStep initTopico
        (AddArg.many [JSVal.str "GOOD", JSVal.nullV])).2.validTopics =
      ["INFO", "ERROR", "GOOD"] ∧
    ((addTopicStep initTopico
        (AddArg.many [JSVal.str "GOOD", JSVal.nullV])).2.topicEnum =
        initTopico.topicEnum ∧
     (addTopicStep initTopico
        (AddArg.many [JSVal.str "GOOD", JSVal.nullV])).2.symCtr =
        initTopico.symCtr) :=
  ⟨by decide, by decide,
   c10_snapshot_unchanged_on_error initTopico
     (AddArg.many [JSVal.str "GOOD", JSVal.nullV])
     (JSErr.invalidArg "addTopic") (by decide)⟩

/-! ## Claim C3: what `validate` actually accepts -/

/-- Counterexample for C3 as stated: the plain string `Symbol(INFO)` — which a
caller can forge from the topic name alone and which is not one of the
identity tokens in the enumeration — nevertheless resolves to `INFO`, so
resolution does not hold exactly for the registry tokens. -/
theorem c3_forged_string_resolves_counterexample :
    validate initTopico.validTopics (JSVal.str "Symbol(INFO)") = some "INFO" ∧
    JSVal.str "Symbol(INFO)" ∉ initTopico.topicEnum.map Prod.snd :=
  ⟨by decide, by decide⟩

/-- Claim C3 (amended): `validate` resolves a value exactly by its JS string
form: any value whose string form is `Symbol(K)` for a registered name `K`
resolves to `K` — in particular every registry token does, but so does the
forged plain string `"Symbol(K)"` — while the bare name string `K` itself
does not resolve (provided, as for every name the registry builds, `K` is not
itself of the form `Symbol(...)`). -/
theorem c3_validate_by_string_form (vt : List String) (hnd : vt.Nodup)
    (k : String) (hk : k ∈ vt)
    (hform : ∀ k2 : String, k ≠ "Symbol(" ++ k2 ++ ")") (i : Nat) :
    validate vt (JSVal.sym k i) = some k ∧
    validate vt (JSVal.str ("Symbol(" ++ k ++ ")")) = some k ∧
    validate vt (JSVal.str k) = none := by
  refine ⟨?_, ?_, ?_⟩
  · exact validate_of_symbolForm vt k hnd hk _ rfl rfl
  · apply validate_of_symbolForm vt k hnd hk
    · show (("Symbol(" ++ k ++ ")" : String) != "") = true
      exact bne_iff_ne.mpr (symbolForm_ne_empty k)
    · rfl
  · by_cases hk0 : k = ""
    · subst hk0
      rfl
    · have htru : truthy (JSVal.str k) = true := by
        simp [truthy, bne_iff_ne, hk0]
      unfold validate
      rw [htru]
      simp only [if_true, jsToString]
      have hlen : 0 < k.length := length_pos_of_ne_empty k hk0
      rw [if_pos hlen]
      have hfil : vt.filter (fun key => k == "Symbol(" ++ key ++ ")") = [] := by
        rw [List.filter_eq_nil_iff]
        intro b hb hpb
        exact hform b (beq_iff_eq.mp hpb)
      rw [hfil]

/-- Closed witness for the amended C3, at the initial registry and `INFO`. -/
theorem c3_validate_by_string_form_witness :
    (initialValidTopics.Nodup ∧ "INFO" ∈ initialValidTopics) ∧
    (validate initialValidTopics (JSVal.sym "INFO" 0) = some "INFO" ∧
     validate initialValidTopics (JSVal.str ("Symbol(" ++ "INFO" ++ ")")) = some "INFO" ∧
     validate initialValidTopics (JSVal.str "INFO") = none) :=
  ⟨⟨by decide, by decide⟩,
   c3_validate_by_string_form initialValidTopics (by decide) "INFO" (by decide)
     (fun k2 h => by
       have hl := congrArg String.length h
       rw [symbolForm_length] at hl
       have h4 : ("INFO" : String).length = 4 := rfl
       omega)
     0⟩

/-! ## Claim C4: delivery timing of `say` -/

/-- A minimal run: register one persistent listener on INFO, then `say`. -/
def c4run : Sys := run initTopico [Cmd.listen infoTok 7, Cmd.say infoTok (JSVal.str "x")]

/-- Refutation of C4: after `say` returns — with no tick, timer or any other
asynchronous step having run — the listener callback has already been invoked
(it is in the log) and nothing at all was scheduled for later (the tick queue
is empty).  mitt's `emit` calls handlers synchronously inside `say`, so
delivery to `listen`/`listenOnce` callbacks is *not* scheduled after the call
returns, contradicting the claim (and the README, which promises asynchronous
delivery). -/
theorem c4_say_delivers_synchronously :
    c4run.log = [(7, JSVal.str "x")] ∧ c4run.ticks = [] :=
  ⟨by decide, by decide⟩

/-! ## Claim C2: what happens to the correlation listener on timeout -/

/-- One request with no responder, TTL allowed to elapse. -/
def c2run : Sys := run initTopico [Cmd.request infoTok (JSVal.str "hello") 0, Cmd.advance 4200]

/-- Counterexample for C2 as stated: after the timeout rejection the internal
one-shot listener keyed by the correlation id `uid0` is still in the listener
table — the watchdog callback (lines 357-363) only rejects and never
unregisters, so a dangling listener remains. -/
theorem c2_dangling_listener_counterexample :
    lookupReq c2run 0 = some ⟨0, "uid0", PromiseState.rejected JSErr.timeout⟩ ∧
    c2run.table.lookup "uid0" = some [Handler.correlation 0 "uid0"] :=
  ⟨by decide, by decide⟩

/-! ## Promise settlement: helper lemmas -/

lemma find?_map_id (f : ReqRec → ReqRec) (hf : ∀ r, (f r).id = r.id)
    (rs : List ReqRec) (rid : Nat) :
    (rs.map f).find? (fun r => r.id == rid) =
      (rs.find? (fun r => r.id == rid)).map f := by
  induction rs with
  | nil => rfl
  | cons r rest ih =>
    cases hp : (r.id == rid) with
    | true =>
      have hp2 : ((f r).id == rid) = true := by rw [hf]; exact hp
      simp [List.find?, hp, hp2]
    | false =>
      have hp2 : ((f r).id == rid) = false := by rw [hf]; exact hp
      simp only [List.map_cons, List.find?, hp, hp2]
      exact ih

/-- Settled request records are never altered by further settlement attempts
or by appending new requests. -/
def keepsSettled (rs rs2 : List ReqRec) : Prop :=
  ∀ (rid : Nat) (tn : String) (st : PromiseState), st ≠ PromiseState.pending →
    rs.find? (fun r => r.id == rid) = some ⟨rid, tn, st⟩ →
    rs2.find? (fun r => r.id == rid) = some ⟨rid, tn, st⟩

lemma keepsSettled_refl (rs : List ReqRec) : keepsSettled rs rs :=
  fun _ _ _ _ h => h

lemma keepsSettled_trans {a b c : List ReqRec}
    (h1 : keepsSettled a b) (h2 : keepsSettled b c) : keepsSettled a c :=
  fun rid tn st hst h => h2 rid tn st hst (h1 rid tn st hst h)

lemma keepsSettled_settleResolveL (rs : List ReqRec) (rid : Nat) (v : JSVal) :
    keepsSettled rs (settleResolveL rs rid v) := by
  intro rid2 tn st hst h
  unfold settleResolveL
  rw [find?_map_id _ (fun r => by split <;> rfl), h]
  show some (if (⟨rid2, tn, st⟩ : ReqRec).id = rid ∧
      (⟨rid2, tn, st⟩ : ReqRec).state = PromiseState.pending
    then _ else _) = _
  rw [if_neg (fun hc => hst hc.2)]

lemma keepsSettled_settleRejectL (rs : List ReqRec) (rid : Nat) (e : JSErr) :
    keepsSettled rs (settleRejectL rs rid e) := by
  intro rid2 tn st hst h
  unfold settleRejectL
  rw [find?_map_id _ (fun r => by split <;> rfl), h]
  show some (if (⟨rid2, tn, st⟩ : ReqRec).id = rid ∧
      (⟨rid2, tn, st⟩ : ReqRec).state = PromiseState.pending
    then _ else _) = _
  rw [if_neg (fun hc => hst hc.2)]

lemma keepsSettled_append (rs l : List ReqRec) : keepsSettled rs (rs ++ l) := by
  intro rid tn st hst h
  rw [List.find?_append, h]
  rfl

lemma keepsSettled_rejectFold (ts : List Timer) (rs : List ReqRec) :
    keepsSettled rs (ts.foldl (fun acc t => settleRejectL acc t.reqId JSErr.timeout) rs) := by
  induction ts generalizing rs with
  | nil => exact keepsSettled_refl rs
  | cons t rest ih =>
    exact keepsSettled_trans (keepsSettled_settleRejectL rs t.reqId JSErr.timeout)
      (ih (settleRejectL rs t.reqId JSErr.timeout))

lemma invokeHandler_reqs_user (s : Sys) (p : JSVal) (cid : Nat) (o : Bool) :
    (invokeHandler s p (Handler.user cid o)).reqs = s.reqs := rfl

lemma invokeHandler_reqs_forValue (s : Sys) (p : JSVal) (tn : String) (v : JSVal)
    (cid fid : Nat) :
    (invokeHandler s p (Handler.forValue tn v cid fid)).reqs = s.reqs := by
  simp only [invokeHandler]
  by_cases hm : strictEq p v = true
  · rw [if_pos hm]
  · rw [if_neg hm]

lemma invokeHandler_reqs_correlation (s : Sys) (p : JSVal) (rid : Nat) (tn : String) :
    (invokeHandler s p (Handler.correlation rid tn)).reqs =
      settleResolveL s.reqs rid p := rfl

lemma keepsSettled_invokeHandler (s : Sys) (p : JSVal) (h : Handler) :
    keepsSettled s.reqs (invokeHandler s p h).reqs := by
  cases h with
  | user cid o => rw [invokeHandler_reqs_user]; exact keepsSettled_refl _
  | forValue tn v cid fid => rw [invokeHandler_reqs_forValue]; exact keepsSettled_refl _
  | correlation rid tn =>
    rw [invokeHandler_reqs_correlation]
    exact keepsSettled_settleResolveL _ rid p

lemma keepsSettled_foldInvoke (hs : List Handler) (s : Sys) (p : JSVal) :
    keepsSettled s.reqs
      ((hs.foldl (fun acc h => invokeHandler acc p h) s).reqs) := by
  induction hs generalizing s with
  | nil => exact keepsSettled_refl _
  | cons h rest ih =>
    exact keepsSettled_trans (keepsSettled_invokeHandler s p h)
      (ih (invokeHandler s p h))

lemma keepsSettled_emit (s : Sys) (k : String) (p : JSVal) :
    keepsSettled s.reqs (emit s k p).reqs := by
  unfold emit
  cases hl : s.table.lookup k with
  | none => exact keepsSettled_refl _
  | some hs => exact keepsSettled_foldInvoke hs s p

lemma removalFold_reqs (fns : List Handler) (s : Sys) (name : String) :
    ((fns.foldl (fun acc fn => { acc with table := tableOff acc.table name fn }) s).reqs) =
      s.reqs := by
  induction fns generalizing s with
  | nil => rfl
  | cons fn rest ih => rw [List.foldl_cons, ih]

lemma keepsSettled_sayStep (s : Sys) (t p : JSVal) :
    keepsSettled s.reqs ((sayStep s t p).2.reqs) := by
  unfold sayStep
  cases hv : validate s.validTopics t with
  | none => exact keepsSettled_refl _
  | some name =>
    dsimp only
    cases hl : (emit s name p).table.lookup name with
    | none => exact keepsSettled_emit s name p
    | some hs =>
      dsimp only
      rw [removalFold_reqs]
      exact keepsSettled_emit s name p

lemma keepsSettled_requestStep (s : Sys) (t q : JSVal) (rid : Nat) :
    keepsSettled s.reqs ((requestStep s t q rid).2.reqs) := by
  unfold requestStep
  cases hv : validate s.validTopics t with
  | none => exact keepsSettled_append _ _
  | some name =>
    dsimp only
    refine keepsSettled_trans
      (keepsSettled_append s.reqs
        [(⟨rid, mkUid s.uidCtr, PromiseState.pending⟩ : ReqRec)]) ?_
    exact keepsSettled_sayStep
      { s with
        table := tableOn s.table (mkUid s.uidCtr) (Handler.correlation rid (mkUid s.uidCtr))
        uidCtr := s.uidCtr + 1
        reqs := s.reqs ++ [(⟨rid, mkUid s.uidCtr, PromiseState.pending⟩ : ReqRec)]
        timers := s.timers ++ [(⟨s.now + s.requestTTL, rid, true⟩ : Timer)] }
      t (JSVal.reqPayload (mkUid s.uidCtr) q)

lemma runTicksFold_reqs (ts : List Tick) (s0 : Sys) :
    ((ts.foldl
        (fun acc t =>
          match t with
          | Tick.invokeUser cid => { acc with log := acc.log ++ [(cid, JSVal.undef)] }
          | Tick.deleteKey k => { acc with table := tableDelete acc.table k }) s0).reqs) =
      s0.reqs := by
  induction ts generalizing s0 with
  | nil => rfl
  | cons t rest ih =>
    rw [List.foldl_cons, ih]
    cases t <;> rfl

lemma addTopicStep_reqs (s : Sys) (arg : AddArg) :
    (addTopicStep s arg).2.reqs = s.reqs := by
  unfold addTopicStep
  cases hl : addTopicLoop s.validTopics (addTopicNames arg) with
  | mk oe vt => cases oe <;> rfl

/-- The core of the settle-once guarantee: no step of the machine ever
changes an already-settled promise. -/
lemma step_keepsSettled (s : Sys) (c : Cmd) :
    keepsSettled s.reqs (step s c).reqs := by
  cases c with
  | addTopic a =>
    show keepsSettled s.reqs (addTopicStep s a).2.reqs
    rw [addTopicStep_reqs]
    exact keepsSettled_refl _
  | listen t cid =>
    show keepsSettled s.reqs (listenStep s t cid).2.reqs
    unfold listenStep
    cases validate s.validTopics t <;> exact keepsSettled_refl _
  | listenOnce t cid =>
    show keepsSettled s.reqs (listenOnceStep s t cid).2.reqs
    unfold listenOnceStep
    cases validate s.validTopics t <;> exact keepsSettled_refl _
  | listenFor t v cid =>
    show keepsSettled s.reqs (listenForStep s t v cid).2.reqs
    unfold listenForStep
    cases validate s.validTopics t with
    | none => exact keepsSettled_refl _
    | some name =>
      dsimp only
      by_cases hp : isPrimitive v = true
      · rw [if_pos hp]; exact keepsSettled_refl _
      · rw [if_neg hp]; exact keepsSettled_refl _
  | say t p => exact keepsSettled_sayStep s t p
  | cancel t =>
    show keepsSettled s.reqs (cancelStep s t).2.reqs
    unfold cancelStep
    cases validate s.validTopics t <;> exact keepsSettled_refl _
  | cancelAll => exact keepsSettled_refl _
  | request t q rid => exact keepsSettled_requestStep s t q rid
  | respond tn a => exact keepsSettled_emit s tn a
  | runTicks =>
    show keepsSettled s.reqs (runTicksStep s).reqs
    unfold runTicksStep
    rw [runTicksFold_reqs]
    exact keepsSettled_refl _
  | advance d =>
    show keepsSettled s.reqs (advanceStep s d).reqs
    unfold advanceStep
    exact keepsSettled_rejectFold _ s.reqs

lemma find?_settleResolveL_pending (rs : List ReqRec) (rid : Nat) (tn : String)
    (v : JSVal)
    (h : rs.find? (fun r => r.id == rid) = some ⟨rid, tn, PromiseState.pending⟩) :
    (settleResolveL rs rid v).find? (fun r => r.id == rid) =
      some ⟨rid, tn, PromiseState.resolved v⟩ := by
  unfold settleResolveL
  rw [find?_map_id _ (fun r => by split <;> rfl), h]
  show some (if (⟨rid, tn, PromiseState.pending⟩ : ReqRec).id = rid ∧
      (⟨rid, tn, PromiseState.pending⟩ : ReqRec).state = PromiseState.pending
    then _ else _) = _
  rw [if_pos ⟨rfl, rfl⟩]

lemma find?_settleRejectL_pending (rs : List ReqRec) (rid : Nat) (tn : String)
    (e : JSErr)
    (h : rs.find? (fun r => r.id == rid) = some ⟨rid, tn, PromiseState.pending⟩) :
    (settleRejectL rs rid e).find? (fun r => r.id == rid) =
      some ⟨rid, tn, PromiseState.rejected e⟩ := by
  unfold settleRejectL
  rw [find?_map_id _ (fun r => by split <;> rfl), h]
  show some (if (⟨rid, tn, PromiseState.pending⟩ : ReqRec).id = rid ∧
      (⟨rid, tn, PromiseState.pending⟩ : ReqRec).state = PromiseState.pending
    then _ else _) = _
  rw [if_pos ⟨rfl, rfl⟩]

lemma find?_settleRejectL_otherId (rs : List ReqRec) (rid2 rid : Nat) (tn : String)
    (st : PromiseState) (e : JSErr) (hne : rid ≠ rid2)
    (h : rs.find? (fun r => r.id == rid) = some ⟨rid, tn, st⟩) :
    (settleRejectL rs rid2 e).find? (fun r => r.id == rid) = some ⟨rid, tn, st⟩ := by
  unfold settleRejectL
  rw [find?_map_id _ (fun r => by split <;> rfl), h]
  show some (if (⟨rid, tn, st⟩ : ReqRec).id = rid2 ∧
      (⟨rid, tn, st⟩ : ReqRec).state = PromiseState.pending
    then _ else _) = _
  rw [if_neg (fun hc => hne hc.1)]

lemma find?_settleResolveL_otherId (rs : List ReqRec) (rid2 rid : Nat) (tn : String)
    (st : PromiseState) (v : JSVal) (hne : rid ≠ rid2)
    (h : rs.find? (fun r => r.id == rid) = some ⟨rid, tn, st⟩) :
    (settleResolveL rs rid2 v).find? (fun r => r.id == rid) = some ⟨rid, tn, st⟩ := by
  unfold settleResolveL
  rw [find?_map_id _ (fun r => by split <;> rfl), h]
  show some (if (⟨rid, tn, st⟩ : ReqRec).id = rid2 ∧
      (⟨rid, tn, st⟩ : ReqRec).state = PromiseState.pending
    then _ else _) = _
  rw [if_neg (fun hc => hne hc.1)]

lemma rejectFold_hits (due : List Timer) (rs : List ReqRec) (rid : Nat)
    (tn : String) (hmem : ∃ t ∈ due, t.reqId = rid)
    (hpend : rs.find? (fun r => r.id == rid) = some ⟨rid, tn, PromiseState.pending⟩) :
    (due.foldl (fun acc t => settleRejectL acc t.reqId JSErr.timeout) rs).find?
        (fun r => r.id == rid) =
      some ⟨rid, tn, PromiseState.rejected JSErr.timeout⟩ := by
  induction due generalizing rs with
  | nil =>
    rcases hmem with ⟨t, ht, _⟩
    cases ht
  | cons t rest ih =>
    rw [List.foldl_cons]
    by_cases htr : t.reqId = rid
    · have hrej : (settleRejectL rs t.reqId JSErr.timeout).find?
          (fun r => r.id == rid) = some ⟨rid, tn, PromiseState.rejected JSErr.timeout⟩ := by
        rw [htr]
        exact find?_settleRejectL_pending rs rid tn JSErr.timeout hpend
      exact keepsSettled_rejectFold rest _ rid tn _ (by simp) hrej
    · have hpend2 : (settleRejectL rs t.reqId JSErr.timeout).find?
          (fun r => r.id == rid) = some ⟨rid, tn, PromiseState.pending⟩ :=
        find?_settleRejectL_otherId rs t.reqId rid tn PromiseState.pending
          JSErr.timeout (fun hc => htr hc.symm) hpend
      have hmem2 : ∃ t2 ∈ rest, t2.reqId = rid := by
        rcases hmem with ⟨t2, ht2, he⟩
        rcases List.mem_cons.mp ht2 with h2 | h2
        · exact absurd (h2 ▸ he) htr
        · exact ⟨t2, h2, he⟩
      exact ih _ hmem2 hpend2

lemma lookup_tableDelete_self (t : List (String × List Handler)) (k : String) :
    (tableDelete t k).lookup k = none := by
  induction t with
  | nil => rfl
  | cons kv rest ih =>
    unfold tableDelete at ih ⊢
    by_cases hk : kv.1 = k
    · simp only [List.filter_cons]
      rw [show (kv.1 != k) = false by simp [hk]]
      simpa using ih
    · simp only [List.filter_cons]
      rw [show (kv.1 != k) = true by simp [hk]]
      have hkk : (k == kv.1) = false := beq_eq_false_iff_ne.mpr (fun h => hk h.symm)
      simp only [List.lookup, hkk]
      exact ih

lemma clearWatchdog_inactive (ts : List Timer) (rid : Nat) :
    ∀ t ∈ clearWatchdog ts rid, t.reqId = rid → t.active = false := by
  intro t ht hr
  unfold clearWatchdog at ht
  rcases List.mem_map.mp ht with ⟨t0, ht0, heq⟩
  subst heq
  by_cases h0 : t0.reqId = rid
  · simp [h0]
  · rw [if_neg h0] at hr ⊢
    exact absurd hr h0

lemma find?_settleResolveL_keep (rs : List ReqRec) (rid2 : Nat) (v : JSVal)
    (rid : Nat) (rec : ReqRec)
    (h : rs.find? (fun r => r.id == rid) = some rec)
    (hkeep : ¬(rec.id = rid2 ∧ rec.state = PromiseState.pending)) :
    (settleResolveL rs rid2 v).find? (fun r => r.id == rid) = some rec := by
  unfold settleResolveL
  rw [find?_map_id _ (fun r => by split <;> rfl), h]
  show some (if rec.id = rid2 ∧ rec.state = PromiseState.pending then _ else _) = _
  rw [if_neg hkeep]

lemma foldInvoke_preserves_otherReq (hs : List Handler) (s : Sys) (p : JSVal)
    (rid : Nat) (rec : ReqRec)
    (hh : ∀ h2 ∈ hs, ∀ tn2, h2 ≠ Handler.correlation rid tn2)
    (h : s.reqs.find? (fun r => r.id == rid) = some rec) :
    ((hs.foldl (fun acc h2 => invokeHandler acc p h2) s).reqs).find?
      (fun r => r.id == rid) = some rec := by
  induction hs generalizing s with
  | nil => exact h
  | cons h2 rest ih =>
    rw [List.foldl_cons]
    apply ih _ (fun h3 hm tn2 => hh h3 (List.mem_cons_of_mem _ hm) tn2)
    cases h2 with
    | user cid o => rw [invokeHandler_reqs_user]; exact h
    | forValue tn v cid fid => rw [invokeHandler_reqs_forValue]; exact h
    | correlation rid2 tn2 =>
      rw [invokeHandler_reqs_correlation]
      have hidr := List.find?_some h
      have hne : rid ≠ rid2 := by
        intro hcontra
        exact hh (Handler.correlation rid2 tn2) (List.mem_cons_self _ _) tn2
          (by rw [hcontra])
      apply find?_settleResolveL_keep _ _ _ _ _ h
      intro hc
      exact hne ((beq_iff_eq.mp hidr) ▸ hc.1)

lemma respondStep_singleton (s : Sys) (tn : String) (rid : Nat) (A : JSVal)
    (hl : s.table.lookup tn = some [Handler.correlation rid tn]) :
    respondStep s tn A = invokeHandler s A (Handler.correlation rid tn) := by
  unfold respondStep emit
  rw [hl]
  rfl

lemma runTicks_deletes_last (s : Sys) (tn : String) (ts0 : List Tick)
    (hts : s.ticks = ts0 ++ [Tick.deleteKey tn]) :
    (runTicksStep s).table.lookup tn = none := by
  unfold runTicksStep
  rw [hts, List.foldl_append]
  exact lookup_tableDelete_self _ tn

lemma advance_rejects_pending (s : Sys) (rid : Nat) (tn : String) (d : Nat)
    (dl : Int)
    (hreq : lookupReq s rid = some ⟨rid, tn, PromiseState.pending⟩)
    (htimer : (⟨dl, rid, true⟩ : Timer) ∈ s.timers)
    (hdue : dl ≤ s.now + (d : Int)) :
    lookupReq (step s (Cmd.advance d)) rid =
      some ⟨rid, tn, PromiseState.rejected JSErr.timeout⟩ := by
  show lookupReq (advanceStep s d) rid = _
  unfold lookupReq at hreq ⊢
  unfold advanceStep
  dsimp only
  apply rejectFold_hits
  · refine ⟨⟨dl, rid, true⟩, ?_, rfl⟩
    apply List.mem_filter.mpr
    refine ⟨htimer, ?_⟩
    simp [hdue]
  · exact hreq

/-! ## Claim C1: the request future settles in exactly one way -/

/-- Claim C1: for a pending request with correlation id `tn`, (1) a matching
`respond(tn, A)` before the timer fires resolves the future with exactly `A`
and deactivates the watchdog; (2) if the armed watchdog's deadline passes
while the request is still pending, the future is rejected with the timeout
error; (3) a `respond` on a key that holds no listener for this request
leaves the future pending (only the matching respond settles it); and (4)
once settled, no step of the machine — no respond, timer, publish or
anything else — ever changes the settled state, so the future never both
resolves and rejects. -/
theorem c1_request_settles_once (s : Sys) (rid : Nat) (tn : String) (A : JSVal)
    (d : Nat) (dl : Int) (c : Cmd) :
    (lookupReq s rid = some ⟨rid, tn, PromiseState.pending⟩ →
      s.table.lookup tn = some [Handler.correlation rid tn] →
      lookupReq (step s (Cmd.respond tn A)) rid =
          some ⟨rid, tn, PromiseState.resolved A⟩ ∧
        ∀ t ∈ (step s (Cmd.respond tn A)).timers, t.reqId = rid → t.active = false) ∧
    (lookupReq s rid = some ⟨rid, tn, PromiseState.pending⟩ →
      (⟨dl, rid, true⟩ : Timer) ∈ s.timers → dl ≤ s.now + (d : Int) →
      lookupReq (step s (Cmd.advance d)) rid =
        some ⟨rid, tn, PromiseState.rejected JSErr.timeout⟩) ∧
    (∀ tn2 A2, lookupReq s rid = some ⟨rid, tn, PromiseState.pending⟩ →
      (∀ hs, s.table.lookup tn2 = some hs →
        ∀ h2 ∈ hs, ∀ tn3, h2 ≠ Handler.correlation rid tn3) →
      lookupReq (step s (Cmd.respond tn2 A2)) rid =
        some ⟨rid, tn, PromiseState.pending⟩) ∧
    (∀ st, st ≠ PromiseState.pending →
      lookupReq s rid = some ⟨rid, tn, st⟩ →
      lookupReq (step s c) rid = some ⟨rid, tn, st⟩) := by
  refine ⟨?_, ?_, ?_, ?_⟩
  · intro hreq hl
    have hstep : step s (Cmd.respond tn A) =
        invokeHandler s A (Handler.correlation rid tn) :=
      respondStep_singleton s tn rid A hl
    constructor
    · unfold lookupReq at hreq ⊢
      rw [hstep, invokeHandler_reqs_correlation]
      exact find?_settleResolveL_pending s.reqs rid tn A hreq
    · rw [hstep]
      exact clearWatchdog_inactive s.timers rid
  · intro hreq htimer hdue
    exact advance_rejects_pending s rid tn d dl hreq htimer hdue
  · intro tn2 A2 hreq hh
    show lookupReq (respondStep s tn2 A2) rid = _
    unfold lookupReq at hreq ⊢
    unfold respondStep emit
    cases hl : s.table.lookup tn2 with
    | none => exact hreq
    | some hs => exact foldInvoke_preserves_otherReq hs s A2 rid _ (hh hs hl) hreq
  · intro st hst hreq
    unfold lookupReq at hreq ⊢
    exact step_keepsSettled s c rid tn st hst hreq

/-- Closed witness for C1: a concrete request on INFO (tracking number
`uid0`): a matching respond resolves it with the answer; letting the TTL
elapse instead rejects it with the timeout error; and a late respond after
the timeout leaves the rejection untouched. -/
theorem c1_request_settles_once_witness :
    lookupReq (run initTopico [Cmd.request infoTok (JSVal.str "hello") 0]) 0 =
      some ⟨0, "uid0", PromiseState.pending⟩ ∧
    lookupReq (step (run initTopico [Cmd.request infoTok (JSVal.str "hello") 0])
        (Cmd.respond "uid0" (JSVal.str "world"))) 0 =
      some ⟨0, "uid0", PromiseState.resolved (JSVal.str "world")⟩ ∧
    lookupReq (step (run initTopico [Cmd.request infoTok (JSVal.str "hello") 0])
        (Cmd.advance 4200)) 0 =
      some ⟨0, "uid0", PromiseState.rejected JSErr.timeout⟩ ∧
    lookupReq (step (step (run initTopico [Cmd.request infoTok (JSVal.str "hello") 0])
        (Cmd.advance 4200)) (Cmd.respond "uid0" (JSVal.str "late"))) 0 =
      some ⟨0, "uid0", PromiseState.rejected JSErr.timeout⟩ :=
  ⟨by decide,
   ((c1_request_settles_once
       (run initTopico [Cmd.request infoTok (JSVal.str "hello") 0])
       0 "uid0" (JSVal.str "world") 4200 4200 Cmd.runTicks).1
     (by decide) (by decide)).1,
   (c1_request_settles_once
       (run initTopico [Cmd.request infoTok (JSVal.str "hello") 0])
       0 "uid0" (JSVal.str "world") 4200 4200 Cmd.runTicks).2.1
     (by decide) (by decide) (by decide),
   (c1_request_settles_once
       (step (run initTopico [Cmd.request infoTok (JSVal.str "hello") 0])
         (Cmd.advance 4200))
       0 "uid0" (JSVal.str "late") 0 0
       (Cmd.respond "uid0" (JSVal.str "late"))).2.2.2
     (PromiseState.rejected JSErr.timeout) (by decide) (by decide)⟩

/-- Claim C2 (amended): when the TTL elapses on a pending request the future
is rejected with the timeout error, but — contrary to the original claim —
the internal one-shot listener under the correlation id is NOT cancelled:
the timeout step leaves the listener table completely unchanged.  The
listener is removed only when a (possibly late) matching `respond` arrives,
whose cleanup deletes the correlation key on the next tick. -/
theorem c2_amended_timeout_keeps_listener (s : Sys) (rid : Nat) (tn : String)
    (d : Nat) (dl : Int) (A : JSVal)
    (hreq : lookupReq s rid = some ⟨rid, tn, PromiseState.pending⟩)
    (htimer : (⟨dl, rid, true⟩ : Timer) ∈ s.timers)
    (hdue : dl ≤ s.now + (d : Int)) :
    lookupReq (step s (Cmd.advance d)) rid =
      some ⟨rid, tn, PromiseState.rejected JSErr.timeout⟩ ∧
    (step s (Cmd.advance d)).table = s.table ∧
    (∀ s2 : Sys, s2.table.lookup tn = some [Handler.correlation rid tn] →
      (step (step s2 (Cmd.respond tn A)) Cmd.runTicks).table.lookup tn = none) := by
  refine ⟨advance_rejects_pending s rid tn d dl hreq htimer hdue, rfl, ?_⟩
  intro s2 hl
  show (runTicksStep (step s2 (Cmd.respond tn A))).table.lookup tn = none
  rw [show step s2 (Cmd.respond tn A) =
      invokeHandler s2 A (Handler.correlation rid tn) from
    respondStep_singleton s2 tn rid A hl]
  exact runTicks_deletes_last _ tn s2.ticks rfl

/-- Closed witness for the amended C2: the concrete no-responder scenario;
after the timeout the table still holds the `uid0` listener (it equals the
pre-timeout table), and a late respond plus a tick drain finally removes it. -/
theorem c2_amended_timeout_keeps_listener_witness :
    lookupReq (step (run initTopico [Cmd.request infoTok (JSVal.str "hello") 0])
        (Cmd.advance 4200)) 0 =
      some ⟨0, "uid0", PromiseState.rejected JSErr.timeout⟩ ∧
    (step (run initTopico [Cmd.request infoTok (JSVal.str "hello") 0])
        (Cmd.advance 4200)).table =
      (run initTopico [Cmd.request infoTok (JSVal.str "hello") 0]).table ∧
    (step (step (run initTopico [Cmd.request infoTok (JSVal.str "hello") 0])
        (Cmd.respond "uid0" (JSVal.str "late"))) Cmd.runTicks).table.lookup "uid0" =
      none :=
  ⟨(c2_amended_timeout_keeps_listener
      (run initTopico [Cmd.request infoTok (JSVal.str "hello") 0])
      0 "uid0" 4200 4200 (JSVal.str "late")
      (by decide) (by decide) (by decide)).1,
   (c2_amended_timeout_keeps_listener
      (run initTopico [Cmd.request infoTok (JSVal.str "hello") 0])
      0 "uid0" 4200 4200 (JSVal.str "late")
      (by decide) (by decide) (by decide)).2.1,
   (c2_amended_timeout_keeps_listener
      (run initTopico [Cmd.request infoTok (JSVal.str "hello") 0])
      0 "uid0" 4200 4200 (JSVal.str "late")
      (by decide) (by decide) (by decide)).2.2
     (run initTopico [Cmd.request infoTok (JSVal.str "hello") 0]) (by decide)⟩

/-! ## Claim C9: request rejects instead of throwing on an invalid topic -/

/-- Claim C9: when the topic does not validate, `request` does not throw
synchronously — it returns normally (thrown error `none`) with a future
already rejected with the `request` `InvalidTopic` type error — whereas the
same validation failure makes `say`, `listen`, `listenOnce`, `listenFor` and
`cancel` throw synchronously at the call site. -/
theorem c9_request_rejects_invalid_topic (s : Sys) (t q p v : JSVal)
    (rid cid : Nat)
    (hv : validate s.validTopics t = none)
    (hfresh : lookupReq s rid = none) :
    (stepE s (Cmd.request t q rid)).1 = none ∧
    lookupReq (step s (Cmd.request t q rid)) rid =
      some ⟨rid, "", PromiseState.rejected (JSErr.invalidTopic "request")⟩ ∧
    (stepE s (Cmd.say t p)).1 = some (JSErr.invalidTopic "say") ∧
    (stepE s (Cmd.listen t cid)).1 = some (JSErr.invalidTopic "listen") ∧
    (stepE s (Cmd.listenOnce t cid)).1 = some (JSErr.invalidTopic "listenOnce") ∧
    (stepE s (Cmd.listenFor t v cid)).1 = some (JSErr.invalidTopic "listenFor") ∧
    (stepE s (Cmd.cancel t)).1 = some (JSErr.invalidTopic "cancel") := by
  refine ⟨?_, ?_, ?_, ?_, ?_, ?_, ?_⟩
  · show (requestStep s t q rid).1 = none
    unfold requestStep
    rw [hv]
  · show lookupReq (requestStep s t q rid).2 rid = _
    unfold requestStep
    rw [hv]
    unfold lookupReq at hfresh ⊢
    dsimp only
    rw [List.find?_append, hfresh]
    simp [List.find?]
  · show (sayStep s t p).1 = some _
    unfold sayStep
    rw [hv]
  · show (listenStep s t cid).1 = some _
    unfold listenStep
    rw [hv]
  · show (listenOnceStep s t cid).1 = some _
    unfold listenOnceStep
    rw [hv]
  · show (listenForStep s t v cid).1 = some _
    unfold listenForStep
    rw [hv]
  · show (cancelStep s t).1 = some _
    unfold cancelStep
    rw [hv]

/-- Closed witness for C9 at the initial state, with the plain string
`nope` as the invalid topic value. -/
theorem c9_request_rejects_invalid_topic_witness :
    (stepE initTopico (Cmd.request (JSVal.str "nope") (JSVal.str "q") 0)).1 = none ∧
    lookupReq (step initTopico (Cmd.request (JSVal.str "nope") (JSVal.str "q") 0)) 0 =
      some ⟨0, "", PromiseState.rejected (JSErr.invalidTopic "request")⟩ ∧
    (stepE initTopico (Cmd.say (JSVal.str "nope") (JSVal.str "p"))).1 =
      some (JSErr.invalidTopic "say") ∧
    (stepE initTopico (Cmd.listen (JSVal.str "nope") 7)).1 =
      some (JSErr.invalidTopic "listen") ∧
    (stepE initTopico (Cmd.listenOnce (JSVal.str "nope") 7)).1 =
      some (JSErr.invalidTopic "listenOnce") ∧
    (stepE initTopico (Cmd.listenFor (JSVal.str "nope") (JSVal.str "v") 7)).1 =
      some (JSErr.invalidTopic "listenFor") ∧
    (stepE initTopico (Cmd.cancel (JSVal.str "nope"))).1 =
      some (JSErr.invalidTopic "cancel") :=
  c9_request_rejects_invalid_topic initTopico (JSVal.str "nope") (JSVal.str "q")
    (JSVal.str "p") (JSVal.str "v") 0 7 (by decide) (by decide)

/-! ## Counting a user callback's firings (claims C5 and C6) -/

/-- Does a handler belong to (wrap) user callback `cid`? -/
def hasCid (cid : Nat) : Handler → Bool
  | .user c _ => c == cid
  | .forValue _ _ c _ => c == cid
  | .correlation _ _ => false

/-- Occurrences of callback `cid` across a listener table. -/
def tblCntT (t : List (String × List Handler)) (cid : Nat) : Nat :=
  (t.map (fun kv => kv.2.countP (hasCid cid))).sum

/-- Occurrences of the exact handler `h0` across a listener table. -/
def cntHT (t : List (String × List Handler)) (h0 : Handler) : Nat :=
  (t.map (fun kv => kv.2.count h0)).sum

/-- Deferred (`process.nextTick`) invocations of callback `cid`. -/
def tickCnt (s : Sys) (cid : Nat) : Nat :=
  s.ticks.countP (fun t =>
    match t with | Tick.invokeUser c => c == cid | Tick.deleteKey _ => false)

/-- Completed invocations of callback `cid`. -/
def logCnt (s : Sys) (cid : Nat) : Nat :=
  s.log.countP (fun e => e.1 == cid)

/-- Past, scheduled and potential firings of callback `cid` together. -/
def fireCnt (s : Sys) (cid : Nat) : Nat :=
  logCnt s cid + tickCnt s cid + tblCntT s.table cid

lemma countP_removeFirst_of_not (p : Handler → Bool) (h : Handler)
    (l : List Handler) (hp : p h = false) :
    (removeFirst h l).countP p = l.countP p := by
  induction l with
  | nil => rfl
  | cons x xs ih =>
    unfold removeFirst
    by_cases hx : x = h
    · rw [if_pos hx, List.countP_cons, hx, hp]
      simp
    · rw [if_neg hx, List.countP_cons, List.countP_cons, ih]

lemma countP_removeFirst_le (p : Handler → Bool) (h : Handler) (l : List Handler) :
    (removeFirst h l).countP p ≤ l.countP p := by
  induction l with
  | nil => exact Nat.le_refl _
  | cons x xs ih =>
    unfold removeFirst
    by_cases hx : x = h
    · rw [if_pos hx, List.countP_cons]
      omega
    · rw [if_neg hx, List.countP_cons, List.countP_cons]
      omega

lemma countP_removeFirst_mem (p : Handler → Bool) (h : Handler) (l : List Handler)
    (hp : p h = true) (hm : h ∈ l) :
    (removeFirst h l).countP p + 1 = l.countP p := by
  induction l with
  | nil => cases hm
  | cons x xs ih =>
    unfold removeFirst
    by_cases hx : x = h
    · rw [if_pos hx, List.countP_cons, hx, hp]
      simp
    · have hm2 : h ∈ xs := by
        rcases List.mem_cons.mp hm with h2 | h2
        · exact absurd h2.symm hx
        · exact h2
      rw [if_neg hx, List.countP_cons, List.countP_cons, ← ih hm2]
      omega

lemma removeFirst_of_not_mem (h : Handler) (l : List Handler) (hm : h ∉ l) :
    removeFirst h l = l := by
  induction l with
  | nil => rfl
  | cons x xs ih =>
    unfold removeFirst
    rw [if_neg (fun he => hm (by rw [← he]; exact List.mem_cons_self x xs)),
      ih (fun h2 => hm (List.mem_cons_of_mem _ h2))]

lemma mem_removeFirst_of_ne (a h : Handler) (l : List Handler) (hne : a ≠ h)
    (hm : a ∈ l) : a ∈ removeFirst h l := by
  induction l with
  | nil => cases hm
  | cons x xs ih =>
    unfold removeFirst
    by_cases hx : x = h
    · rw [if_pos hx]
      rcases List.mem_cons.mp hm with h2 | h2
      · exact absurd (h2.trans hx) hne
      · exact h2
    · rw [if_neg hx]
      rcases List.mem_cons.mp hm with h2 | h2
      · exact h2 ▸ List.mem_cons_self x _
      · exact List.mem_cons_of_mem _ (ih h2)

lemma mem_removeFirst (a h : Handler) (l : List Handler)
    (hm : a ∈ removeFirst h l) : a ∈ l := by
  induction l with
  | nil => cases hm
  | cons x xs ih =>
    unfold removeFirst at hm
    by_cases hx : x = h
    · rw [if_pos hx] at hm
      exact List.mem_cons_of_mem _ hm
    · rw [if_neg hx] at hm
      rcases List.mem_cons.mp hm with h2 | h2
      · exact h2 ▸ List.mem_cons_self x _
      · exact List.mem_cons_of_mem _ (ih h2)

lemma count_removeFirst_of_ne (a h : Handler) (l : List Handler) (hne : h ≠ a) :
    (removeFirst h l).count a = l.count a := by
  have : ((· == a) : Handler → Bool) h = false := beq_eq_false_iff_ne.mpr hne
  exact countP_removeFirst_of_not _ h l this

lemma lookup_updTable_self (t : List (String × List Handler)) (k : String)
    (f : List Handler → List Handler) :
    (updTable t k f).lookup k = (t.lookup k).map f := by
  induction t with
  | nil => rfl
  | cons kv rest ih =>
    unfold updTable at ih ⊢
    by_cases hk : kv.1 = k
    · rw [List.map_cons, if_pos hk]
      have hbeq : (k == kv.1) = true := beq_iff_eq.mpr hk.symm
      simp only [List.lookup, hbeq]
      rfl
    · rw [List.map_cons, if_neg hk]
      have hbeq : (k == kv.1) = false := beq_eq_false_iff_ne.mpr (fun h => hk h.symm)
      simp only [List.lookup, hbeq]
      exact ih

lemma tblCntT_updTable_congr (t : List (String × List Handler)) (k : String)
    (f : List Handler → List Handler) (cid : Nat)
    (hf : ∀ l, (f l).countP (hasCid cid) = l.countP (hasCid cid)) :
    tblCntT (updTable t k f) cid = tblCntT t cid := by
  induction t with
  | nil => rfl
  | cons kv rest ih =>
    unfold updTable at ih ⊢
    unfold tblCntT at ih ⊢
    by_cases hk : kv.1 = k
    · simp only [List.map_cons, List.sum_cons]
      rw [if_pos hk]
      rw [hf, ih]
    · simp only [List.map_cons, List.sum_cons]
      rw [if_neg hk]
      rw [ih]

lemma tblCntT_updTable_le (t : List (String × List Handler)) (k : String)
    (f : List Handler → List Handler) (cid : Nat)
    (hf : ∀ l, (f l).countP (hasCid cid) ≤ l.countP (hasCid cid)) :
    tblCntT (updTable t k f) cid ≤ tblCntT t cid := by
  induction t with
  | nil => exact Nat.le_refl _
  | cons kv rest ih =>
    unfold updTable at ih ⊢
    unfold tblCntT at ih ⊢
    by_cases hk : kv.1 = k
    · simp only [List.map_cons, List.sum_cons]
      rw [if_pos hk]
      exact Nat.add_le_add (hf _) ih
    · simp only [List.map_cons, List.sum_cons]
      rw [if_neg hk]
      exact Nat.add_le_add (Nat.le_refl _) ih

lemma cntHT_updTable_congr (t : List (String × List Handler)) (k : String)
    (f : List Handler → List Handler) (h0 : Handler)
    (hf : ∀ l, (f l).count h0 = l.count h0) :
    cntHT (updTable t k f) h0 = cntHT t h0 := by
  induction t with
  | nil => rfl
  | cons kv rest ih =>
    unfold updTable at ih ⊢
    unfold cntHT at ih ⊢
    by_cases hk : kv.1 = k
    · simp only [List.map_cons, List.sum_cons]
      rw [if_pos hk]
      rw [hf, ih]
    · simp only [List.map_cons, List.sum_cons]
      rw [if_neg hk]
      rw [ih]

lemma tblCntT_tableOff_nocid (t : List (String × List Handler)) (k : String)
    (h : Handler) (cid : Nat) (hh : hasCid cid h = false) :
    tblCntT (tableOff t k h) cid = tblCntT t cid :=
  tblCntT_updTable_congr t k _ cid
    (fun l => countP_removeFirst_of_not _ h l hh)

lemma cntHT_tableOff_ne (t : List (String × List Handler)) (k : String)
    (h h0 : Handler) (hne : h ≠ h0) :
    cntHT (tableOff t k h) h0 = cntHT t h0 :=
  cntHT_updTable_congr t k _ h0 (fun l => count_removeFirst_of_ne h0 h l hne)

lemma lookup_mem (t : List (String × List Handler)) (k : String)
    (l : List Handler) (hl : t.lookup k = some l) : (k, l) ∈ t := by
  induction t with
  | nil => cases hl
  | cons kv rest ih =>
    by_cases hk : k = kv.1
    · have hbeq : (k == kv.1) = true := beq_iff_eq.mpr hk
      simp only [List.lookup, hbeq] at hl
      cases hl
      rw [hk]
      exact List.mem_cons_self _ _
    · have hbeq : (k == kv.1) = false := beq_eq_false_iff_ne.mpr hk
      simp only [List.lookup, hbeq] at hl
      exact List.mem_cons_of_mem _ (ih hl)

lemma entry_countP_le_tblCntT (t : List (String × List Handler)) (k : String)
    (l : List Handler) (cid : Nat) (hl : t.lookup k = some l) :
    l.countP (hasCid cid) ≤ tblCntT t cid := by
  have hmem := lookup_mem t k l hl
  have : l.countP (hasCid cid) ∈ t.map (fun kv => kv.2.countP (hasCid cid)) :=
    List.mem_map.mpr ⟨(k, l), hmem, rfl⟩
  exact List.single_le_sum (fun x _ => Nat.zero_le x) _ this

lemma entry_count_le_cntHT (t : List (String × List Handler)) (k : String)
    (l : List Handler) (h0 : Handler) (hl : t.lookup k = some l) :
    l.count h0 ≤ cntHT t h0 := by
  have hmem := lookup_mem t k l hl
  have : l.count h0 ∈ t.map (fun kv => kv.2.count h0) :=
    List.mem_map.mpr ⟨(k, l), hmem, rfl⟩
  exact List.single_le_sum (fun x _ => Nat.zero_le x) _ this

lemma count_le_countP_hasCid (l : List Handler) (h0 : Handler) (cid : Nat)
    (hc : hasCid cid h0 = true) : l.count h0 ≤ l.countP (hasCid cid) := by
  rw [List.count_eq_countP]
  apply List.countP_mono_left
  intro x _ hx
  rw [beq_iff_eq.mp hx]
  exact hc

lemma tblCntT_tableOff_of_cntHT_zero (t : List (String × List Handler))
    (name : String) (h0 : Handler) (cid : Nat) (hz : cntHT t h0 = 0) :
    tblCntT (tableOff t name h0) cid = tblCntT t cid := by
  induction t with
  | nil => rfl
  | cons kv rest ih =>
    unfold cntHT at hz
    simp only [List.map_cons, List.sum_cons] at hz
    obtain ⟨hz1, hz2⟩ := Nat.add_eq_zero.mp hz
    have hnm : h0 ∉ kv.2 := List.count_eq_zero.mp hz1
    unfold tableOff updTable at ih ⊢
    unfold tblCntT at ih ⊢
    simp only [List.map_cons, List.sum_cons]
    have hrest := ih hz2
    by_cases hk : kv.1 = name
    · rw [if_pos hk]
      rw [removeFirst_of_not_mem h0 kv.2 hnm]
      rw [hrest]
    · rw [if_neg hk]
      rw [hrest]

lemma tblCntT_off_unique (t : List (String × List Handler)) (name : String)
    (h0 : Handler) (cid : Nat) (hc : hasCid cid h0 = true)
    (l : List Handler) (hl : t.lookup name = some l) (hm : h0 ∈ l)
    (hcnt : cntHT t h0 = 1) :
    tblCntT (tableOff t name h0) cid + 1 = tblCntT t cid := by
  induction t with
  | nil => cases hl
  | cons kv rest ih =>
    unfold cntHT at hcnt
    simp only [List.map_cons, List.sum_cons] at hcnt
    by_cases hk : name = kv.1
    · have hbeq : (name == kv.1) = true := beq_iff_eq.mpr hk
      simp only [List.lookup, hbeq] at hl
      cases hl
      have hcount : 1 ≤ kv.2.count h0 := List.one_le_count_iff.mpr hm
      have hz2 : cntHT rest h0 = 0 := by
        unfold cntHT
        omega
      unfold tableOff updTable
      unfold tblCntT
      simp only [List.map_cons, List.sum_cons]
      rw [if_pos hk.symm]
      dsimp only
      have hhead := countP_removeFirst_mem (hasCid cid) h0 kv.2 hc hm
      have hrest : tblCntT (tableOff rest name h0) cid = tblCntT rest cid :=
        tblCntT_tableOff_of_cntHT_zero rest name h0 cid hz2
      unfold tableOff updTable at hrest
      unfold tblCntT at hrest
      omega
    · have hbeq : (name == kv.1) = false :=
        beq_eq_false_iff_ne.mpr hk
      simp only [List.lookup, hbeq] at hl
      have hcnt2 : kv.2.count h0 + cntHT rest h0 = 1 := by
        unfold cntHT
        exact hcnt
      have hge : 1 ≤ cntHT rest h0 := by
        have h1 : 1 ≤ l.count h0 := List.one_le_count_iff.mpr hm
        have h2 := entry_count_le_cntHT rest name l h0 hl
        omega
      have hz1 : kv.2.count h0 = 0 := by omega
      have hr1 : cntHT rest h0 = 1 := by omega
      unfold tableOff updTable
      unfold tblCntT
      simp only [List.map_cons, List.sum_cons]
      rw [if_neg (fun he => hk he.symm)]
      have hrest := ih hl hr1
      unfold tableOff updTable at hrest
      unfold tblCntT at hrest
      omega

/-- Well-formedness of the handlers wrapping callback `cid`: each is either a
`listenOnce` registration (once-flagged user handler) or a `listenFor` closure
stored under the very key it captured. -/
def goodHandlerB (cid : Nat) (k : String) (h : Handler) : Bool :=
  !(hasCid cid h) ||
    (match h with
     | .user _ once => once
     | .forValue tname _ _ _ => tname == k
     | .correlation _ _ => false)

/-- All handlers for `cid` anywhere in the table are well-formed. -/
def shapeBT (t : List (String × List Handler)) (cid : Nat) : Bool :=
  t.all (fun kv => kv.2.all (goodHandlerB cid kv.1))

/-- `t2` refines `t`: every entry of `t2` corresponds to an entry of `t` with
the same key and a subset of its handlers. -/
def entryMono (t t2 : List (String × List Handler)) : Prop :=
  ∀ kv2 ∈ t2, ∃ kv ∈ t, kv2.1 = kv.1 ∧ ∀ h ∈ kv2.2, h ∈ kv.2

lemma entryMono_refl (t : List (String × List Handler)) : entryMono t t :=
  fun kv2 h => ⟨kv2, h, rfl, fun _ hh => hh⟩

lemma entryMono_trans {a b c : List (String × List Handler)}
    (h1 : entryMono a b) (h2 : entryMono b c) : entryMono a c := by
  intro kv2 hkv2
  rcases h2 kv2 hkv2 with ⟨kvb, hkvb, hk2, hsub2⟩
  rcases h1 kvb hkvb with ⟨kva, hkva, hk1, hsub1⟩
  exact ⟨kva, hkva, hk2.trans hk1, fun h hh => hsub1 h (hsub2 h hh)⟩

lemma entryMono_tableOff (t : List (String × List Handler)) (k : String)
    (h : Handler) : entryMono t (tableOff t k h) := by
  intro kv2 hkv2
  unfold tableOff updTable at hkv2
  rcases List.mem_map.mp hkv2 with ⟨kv, hkv, heq⟩
  by_cases hk : kv.1 = k
  · rw [if_pos hk] at heq
    refine ⟨kv, hkv, ?_, ?_⟩
    · rw [← heq]
    · intro h2 hh2
      rw [← heq] at hh2
      exact mem_removeFirst h2 h kv.2 hh2
  · rw [if_neg hk] at heq
    exact ⟨kv, hkv, by rw [heq], fun h2 hh2 => by rw [heq]; exact hh2⟩

lemma entryMono_tableDelete (t : List (String × List Handler)) (k : String) :
    entryMono t (tableDelete t k) := by
  intro kv2 hkv2
  unfold tableDelete at hkv2
  exact ⟨kv2, List.mem_of_mem_filter hkv2, rfl, fun _ hh => hh⟩

lemma shapeBT_mono (t t2 : List (String × List Handler)) (cid : Nat)
    (hrel : entryMono t t2) (hs : shapeBT t cid = true) : shapeBT t2 cid = true := by
  unfold shapeBT at hs ⊢
  rw [List.all_eq_true] at hs ⊢
  intro kv2 hkv2
  rcases hrel kv2 hkv2 with ⟨kv, hkv, hk, hsub⟩
  have := hs kv hkv
  rw [List.all_eq_true] at this ⊢
  intro h hh
  rw [hk]
  exact this h (hsub h hh)

lemma shapeBT_tableOn_nocid (t : List (String × List Handler)) (k : String)
    (h : Handler) (cid : Nat) (hh : hasCid cid h = false)
    (hs : shapeBT t cid = true) : shapeBT (tableOn t k h) cid = true := by
  have hgood : ∀ k2, goodHandlerB cid k2 h = true := by
    intro k2
    unfold goodHandlerB
    rw [hh]
    rfl
  unfold tableOn
  cases hl : t.lookup k with
  | some l =>
    unfold shapeBT at hs ⊢
    unfold updTable
    rw [List.all_eq_true] at hs ⊢
    intro kv2 hkv2
    rcases List.mem_map.mp hkv2 with ⟨kv, hkv, heq⟩
    have hold := hs kv hkv
    by_cases hk : kv.1 = k
    · rw [if_pos hk] at heq
      rw [← heq]
      rw [List.all_eq_true] at hold ⊢
      intro h2 hh2
      rcases List.mem_append.mp hh2 with h3 | h3
      · exact hold h2 h3
      · rw [List.mem_singleton.mp h3]
        exact hgood _
    · rw [if_neg hk] at heq
      rw [← heq]
      exact hold
  | none =>
    unfold shapeBT at hs ⊢
    rw [List.all_eq_true] at hs ⊢
    intro kv2 hkv2
    rcases List.mem_append.mp hkv2 with h3 | h3
    · exact hs kv2 h3
    · rw [List.mem_singleton.mp h3]
      rw [List.all_eq_true]
      intro h2 hh2
      rw [List.mem_singleton.mp hh2]
      exact hgood _

lemma shape_elim (t : List (String × List Handler)) (cid : Nat) (k : String)
    (l : List Handler) (h : Handler) (hs : shapeBT t cid = true)
    (hl : t.lookup k = some l) (hm : h ∈ l) (hc : hasCid cid h = true) :
    h = Handler.user cid true ∨ ∃ v fid, h = Handler.forValue k v cid fid := by
  have hmem := lookup_mem t k l hl
  unfold shapeBT at hs
  rw [List.all_eq_true] at hs
  have h1 := hs (k, l) hmem
  rw [List.all_eq_true] at h1
  have hg := h1 h hm
  unfold goodHandlerB at hg
  rw [hc] at hg
  cases h with
  | user c once =>
    have hcc : c = cid := beq_iff_eq.mp hc
    simp only [Bool.not_true, Bool.false_or] at hg
    left
    rw [hcc, hg]
  | forValue tname v c fid =>
    have hcc : c = cid := beq_iff_eq.mp hc
    simp only [Bool.not_true, Bool.false_or] at hg
    right
    exact ⟨v, fid, by rw [hcc, beq_iff_eq.mp hg]⟩
  | correlation rid tn => cases hc

lemma lookup_updTable_other (t : List (String × List Handler)) (k k2 : String)
    (f : List Handler → List Handler) (hne : k2 ≠ k) :
    (updTable t k f).lookup k2 = t.lookup k2 := by
  induction t with
  | nil => rfl
  | cons kv rest ih =>
    unfold updTable at ih ⊢
    by_cases hk : kv.1 = k
    · rw [List.map_cons, if_pos hk]
      have hbeq : (k2 == kv.1) = false :=
        beq_eq_false_iff_ne.mpr (fun he => hne (he.trans hk))
      simp only [List.lookup, hbeq]
      exact ih
    · rw [List.map_cons, if_neg hk]
      cases hbeq : (k2 == kv.1) with
      | true => simp only [List.lookup, hbeq]
      | false =>
        simp only [List.lookup, hbeq]
        exact ih

/-- Entries keep every handler of callback `cid` when passing from `t` to
`t2` (lookups still succeed and the cid handlers are still there). -/
def cidEntryKeep (cid : Nat) (t t2 : List (String × List Handler)) : Prop :=
  ∀ k l0, t.lookup k = some l0 → ∃ l1, t2.lookup k = some l1 ∧
    ∀ h0, hasCid cid h0 = true → h0 ∈ l0 → h0 ∈ l1

lemma cidEntryKeep_refl (cid : Nat) (t : List (String × List Handler)) :
    cidEntryKeep cid t t :=
  fun k l0 hl => ⟨l0, hl, fun _ _ hm => hm⟩

lemma cidEntryKeep_trans {cid : Nat} {a b c : List (String × List Handler)}
    (h1 : cidEntryKeep cid a b) (h2 : cidEntryKeep cid b c) :
    cidEntryKeep cid a c := by
  intro k l0 hl
  rcases h1 k l0 hl with ⟨l1, hl1, hk1⟩
  rcases h2 k l1 hl1 with ⟨l2, hl2, hk2⟩
  exact ⟨l2, hl2, fun h0 hc hm => hk2 h0 hc (hk1 h0 hc hm)⟩

lemma cidEntryKeep_tableOff_nocid (cid : Nat) (t : List (String × List Handler))
    (k : String) (h : Handler) (hh : hasCid cid h = false) :
    cidEntryKeep cid t (tableOff t k h) := by
  intro k2 l0 hl
  by_cases hk : k2 = k
  · subst hk
    refine ⟨removeFirst h l0, ?_, ?_⟩
    · unfold tableOff
      rw [lookup_updTable_self, hl]
      rfl
    · intro h0 hc hm
      apply mem_removeFirst_of_ne
      · intro he
        rw [he] at hc
        rw [hc] at hh
        cases hh
      · exact hm
  · refine ⟨l0, ?_, fun _ _ hm => hm⟩
    unfold tableOff
    rw [lookup_updTable_other t k k2 _ hk]
    exact hl

lemma countP_singleton_pair (q : (Nat × JSVal) → Bool) (a : Nat × JSVal) :
    List.countP q [a] = if q a then 1 else 0 := by
  rw [List.countP_cons, List.countP_nil]
  omega

lemma countP_singleton_tick (q : Tick → Bool) (a : Tick) :
    List.countP q [a] = if q a then 1 else 0 := by
  rw [List.countP_cons, List.countP_nil]
  omega

lemma invoke_nocid_log (cid : Nat) (s : Sys) (p : JSVal) (h : Handler)
    (hh : hasCid cid h = false) :
    logCnt (invokeHandler s p h) cid = logCnt s cid := by
  cases h with
  | user c o =>
    show (s.log ++ [(c, p)]).countP _ = s.log.countP _
    rw [List.countP_append, countP_singleton_pair]
    have hc : (c == cid) = false := hh
    simp [hc]
  | forValue tname v c fid =>
    simp only [invokeHandler]
    by_cases hm : strictEq p v = true
    · rw [if_pos hm]
      rfl
    · rw [if_neg hm]
  | correlation rid tn => rfl

lemma invoke_nocid_tick (cid : Nat) (s : Sys) (p : JSVal) (h : Handler)
    (hh : hasCid cid h = false) :
    tickCnt (invokeHandler s p h) cid = tickCnt s cid := by
  cases h with
  | user c o => rfl
  | forValue tname v c fid =>
    simp only [invokeHandler]
    by_cases hm : strictEq p v = true
    · rw [if_pos hm]
      show (s.ticks ++ [Tick.invokeUser c]).countP _ = s.ticks.countP _
      rw [List.countP_append, countP_singleton_tick]
      have hc : (c == cid) = false := hh
      simp [hc]
    · rw [if_neg hm]
  | correlation rid tn =>
    show (s.ticks ++ [Tick.deleteKey tn]).countP _ = s.ticks.countP _
    rw [List.countP_append, countP_singleton_tick]
    simp

lemma invoke_nocid_table (cid : Nat) (s : Sys) (p : JSVal) (h : Handler)
    (hh : hasCid cid h = false) :
    tblCntT (invokeHandler s p h).table cid = tblCntT s.table cid ∧
    entryMono s.table (invokeHandler s p h).table ∧
    cidEntryKeep cid s.table (invokeHandler s p h).table ∧
    (∀ h0, hasCid cid h0 = true →
      cntHT (invokeHandler s p h).table h0 = cntHT s.table h0) := by
  cases h with
  | user c o =>
    exact ⟨rfl, entryMono_refl _, cidEntryKeep_refl _ _, fun _ _ => rfl⟩
  | forValue tname v c fid =>
    simp only [invokeHandler]
    by_cases hm : strictEq p v = true
    · rw [if_pos hm]
      refine ⟨tblCntT_tableOff_nocid _ _ _ _ hh, entryMono_tableOff _ _ _,
        cidEntryKeep_tableOff_nocid _ _ _ _ hh, ?_⟩
      intro h0 hc
      apply cntHT_tableOff_ne
      intro he
      rw [he] at hh
      rw [hc] at hh
      cases hh
    · rw [if_neg hm]
      exact ⟨rfl, entryMono_refl _, cidEntryKeep_refl _ _, fun _ _ => rfl⟩
  | correlation rid tn =>
    exact ⟨rfl, entryMono_refl _, cidEntryKeep_refl _ _, fun _ _ => rfl⟩

lemma foldInvoke_nocid (cid : Nat) (p : JSVal) (hs : List Handler) (s : Sys)
    (hno : ∀ h ∈ hs, hasCid cid h = false) :
    logCnt (hs.foldl (fun acc h => invokeHandler acc p h) s) cid = logCnt s cid ∧
    tickCnt (hs.foldl (fun acc h => invokeHandler acc p h) s) cid = tickCnt s cid ∧
    tblCntT (hs.foldl (fun acc h => invokeHandler acc p h) s).table cid =
      tblCntT s.table cid ∧
    entryMono s.table (hs.foldl (fun acc h => invokeHandler acc p h) s).table ∧
    cidEntryKeep cid s.table (hs.foldl (fun acc h => invokeHandler acc p h) s).table ∧
    (∀ h0, hasCid cid h0 = true →
      cntHT (hs.foldl (fun acc h => invokeHandler acc p h) s).table h0 =
        cntHT s.table h0) := by
  induction hs generalizing s with
  | nil =>
    exact ⟨rfl, rfl, rfl, entryMono_refl _, cidEntryKeep_refl _ _, fun _ _ => rfl⟩
  | cons h rest ih =>
    have hhh : hasCid cid h = false := hno h (List.mem_cons_self _ _)
    have hrest : ∀ h2 ∈ rest, hasCid cid h2 = false :=
      fun h2 hm => hno h2 (List.mem_cons_of_mem _ hm)
    obtain ⟨t1, t2, t3, t4⟩ := invoke_nocid_table cid s p h hhh
    obtain ⟨i1, i2, i3, i4, i5, i6⟩ := ih (invokeHandler s p h) hrest
    rw [List.foldl_cons]
    refine ⟨?_, ?_, ?_, ?_, ?_, ?_⟩
    · rw [i1, invoke_nocid_log cid s p h hhh]
    · rw [i2, invoke_nocid_tick cid s p h hhh]
    · rw [i3, t1]
    · exact entryMono_trans t2 i4
    · exact cidEntryKeep_trans t3 i5
    · intro h0 hc
      rw [i6 h0 hc, t4 h0 hc]

lemma cntHT_le_tblCntT (t : List (String × List Handler)) (h0 : Handler)
    (cid : Nat) (hc : hasCid cid h0 = true) : cntHT t h0 ≤ tblCntT t cid := by
  induction t with
  | nil => exact Nat.le_refl _
  | cons kv rest ih =>
    unfold cntHT tblCntT at ih ⊢
    simp only [List.map_cons, List.sum_cons]
    exact Nat.add_le_add (count_le_countP_hasCid kv.2 h0 cid hc) ih

lemma countP_le_one_unique (p : Handler → Bool) (l : List Handler)
    (hle : l.countP p ≤ 1) (a b : Handler) (ha : a ∈ l) (hb : b ∈ l)
    (hpa : p a = true) (hpb : p b = true) : a = b := by
  induction l with
  | nil => cases ha
  | cons x xs ih =>
    rw [List.countP_cons] at hle
    rcases List.mem_cons.mp ha with ha2 | ha2
    · rcases List.mem_cons.mp hb with hb2 | hb2
      · exact ha2.trans hb2.symm
      · exfalso
        have hpos : 0 < xs.countP p := List.countP_pos_iff.mpr ⟨b, hb2, hpb⟩
        have hpx : p x = true := ha2 ▸ hpa
        rw [hpx] at hle
        simp only [if_true] at hle
        omega
    · rcases List.mem_cons.mp hb with hb2 | hb2
      · exfalso
        have hpos : 0 < xs.countP p := List.countP_pos_iff.mpr ⟨a, ha2, hpa⟩
        have hpx : p x = true := hb2 ▸ hpb
        rw [hpx] at hle
        simp only [if_true] at hle
        omega
      · apply ih ?_ ha2 hb2
        by_cases hpx : p x = true
        · rw [hpx] at hle
          simp only [if_true] at hle
          omega
        · rw [eq_false_of_ne_true hpx] at hle
          simp only [Bool.false_eq_true, if_false] at hle
          omega

lemma countP_eq_one_split (p : Handler → Bool) (hs : List Handler)
    (h1 : hs.countP p = 1) :
    ∃ a h0 b, hs = a ++ h0 :: b ∧ p h0 = true ∧
      a.countP p = 0 ∧ b.countP p = 0 := by
  induction hs with
  | nil => cases h1
  | cons x xs ih =>
    rw [List.countP_cons] at h1
    by_cases hx : p x = true
    · rw [hx] at h1
      simp only [if_true] at h1
      refine ⟨[], x, xs, rfl, hx, rfl, ?_⟩
      omega
    · have hx2 : p x = false := eq_false_of_ne_true hx
      rw [hx2] at h1
      simp only [Bool.false_eq_true, if_false] at h1
      rcases ih (by omega) with ⟨a, h0, b, heq, hp0, hpa, hpb⟩
      refine ⟨x :: a, h0, b, by rw [heq]; rfl, hp0, ?_, hpb⟩
      rw [List.countP_cons, hx2, hpa]
      simp

lemma removalFold_log (fns : List Handler) (s : Sys) (name : String) :
    ((fns.foldl (fun acc fn => { acc with table := tableOff acc.table name fn }) s).log) =
      s.log := by
  induction fns generalizing s with
  | nil => rfl
  | cons fn rest ih => rw [List.foldl_cons, ih]

lemma removalFold_ticks (fns : List Handler) (s : Sys) (name : String) :
    ((fns.foldl (fun acc fn => { acc with table := tableOff acc.table name fn }) s).ticks) =
      s.ticks := by
  induction fns generalizing s with
  | nil => rfl
  | cons fn rest ih => rw [List.foldl_cons, ih]

lemma removalFold_logCnt (fns : List Handler) (s : Sys) (name : String)
    (cid : Nat) :
    logCnt (fns.foldl
      (fun acc fn => { acc with table := tableOff acc.table name fn }) s) cid =
      logCnt s cid := by
  unfold logCnt
  rw [removalFold_log]

lemma removalFold_tickCnt (fns : List Handler) (s : Sys) (name : String)
    (cid : Nat) :
    tickCnt (fns.foldl
      (fun acc fn => { acc with table := tableOff acc.table name fn }) s) cid =
      tickCnt s cid := by
  unfold tickCnt
  rw [removalFold_ticks]

lemma removalFold_tbl_le (fns : List Handler) (s : Sys) (name : String) (cid : Nat) :
    tblCntT ((fns.foldl
        (fun acc fn => { acc with table := tableOff acc.table name fn }) s).table) cid ≤
      tblCntT s.table cid := by
  induction fns generalizing s with
  | nil => exact Nat.le_refl _
  | cons fn rest ih =>
    rw [List.foldl_cons]
    refine Nat.le_trans (ih _) ?_
    exact tblCntT_updTable_le s.table name _ cid
      (fun l => countP_removeFirst_le _ fn l)

lemma removalFold_entryMono (fns : List Handler) (s : Sys) (name : String) :
    entryMono s.table
      ((fns.foldl
        (fun acc fn => { acc with table := tableOff acc.table name fn }) s).table) := by
  induction fns generalizing s with
  | nil => exact entryMono_refl _
  | cons fn rest ih =>
    rw [List.foldl_cons]
    exact entryMono_trans (entryMono_tableOff s.table name fn) (ih _)

lemma removalFold_tbl_nocid (fns : List Handler) (s : Sys) (name : String)
    (cid : Nat) (hno : ∀ fn ∈ fns, hasCid cid fn = false) :
    tblCntT ((fns.foldl
        (fun acc fn => { acc with table := tableOff acc.table name fn }) s).table) cid =
      tblCntT s.table cid := by
  induction fns generalizing s with
  | nil => rfl
  | cons fn rest ih =>
    rw [List.foldl_cons]
    rw [ih _ (fun f hm => hno f (List.mem_cons_of_mem _ hm))]
    exact tblCntT_tableOff_nocid s.table name fn cid (hno fn (List.mem_cons_self _ _))

lemma removalFold_kills (fns : List Handler) (name : String) (h0 : Handler)
    (cid : Nat) (hcid : hasCid cid h0 = true)
    (hfns : ∀ fn ∈ fns, hasCid cid fn = false ∨ fn = h0) (hmem : h0 ∈ fns)
    (s : Sys) (l1 : List Handler) (hl1 : s.table.lookup name = some l1)
    (hml : h0 ∈ l1) (hcnt1 : tblCntT s.table cid = 1) (hch : cntHT s.table h0 = 1) :
    tblCntT ((fns.foldl
        (fun acc fn => { acc with table := tableOff acc.table name fn }) s).table) cid =
      0 := by
  induction fns generalizing s l1 with
  | nil => cases hmem
  | cons fn rest ih =>
    rw [List.foldl_cons]
    by_cases hfh : fn = h0
    · subst hfh
      have hoff := tblCntT_off_unique s.table name fn cid hcid l1 hl1 hml hch
      have hle := removalFold_tbl_le rest
        { s with table := tableOff s.table name fn } name cid
      have hz : tblCntT ({ s with table := tableOff s.table name fn } : Sys).table cid
          = 0 := by
        show tblCntT (tableOff s.table name fn) cid = 0
        omega
      omega
    · rcases hfns fn (List.mem_cons_self _ _) with hno | he
      · have hml2 : h0 ∈ removeFirst fn l1 :=
          mem_removeFirst_of_ne h0 fn l1 (fun he2 => hfh he2.symm) hml
        have hl2 : ({ s with table := tableOff s.table name fn } : Sys).table.lookup
            name = some (removeFirst fn l1) := by
          show (tableOff s.table name fn).lookup name = _
          unfold tableOff
          rw [lookup_updTable_self, hl1]
          rfl
        have hmem2 : h0 ∈ rest := by
          rcases List.mem_cons.mp hmem with h2 | h2
          · exact absurd h2.symm hfh
          · exact h2
        refine ih (fun f hm => hfns f (List.mem_cons_of_mem _ hm)) hmem2 _ _
          hl2 hml2 ?_ ?_
        · show tblCntT (tableOff s.table name fn) cid = 1
          rw [tblCntT_tableOff_nocid s.table name fn cid hno]
          exact hcnt1
        · show cntHT (tableOff s.table name fn) h0 = 1
          rw [cntHT_tableOff_ne s.table name fn h0 (fun he2 => hfh he2)]
          exact hch
      · exact absurd he hfh

lemma emit_eq_fold (s : Sys) (k : String) (p : JSVal) (hs : List Handler)
    (hl : s.table.lookup k = some hs) :
    emit s k p = hs.foldl (fun acc h => invokeHandler acc p h) s := by
  unfold emit
  rw [hl]

lemma emit_eq_self (s : Sys) (k : String) (p : JSVal)
    (hl : s.table.lookup k = none) : emit s k p = s := by
  unfold emit
  rw [hl]

lemma invoke_user_self (s : Sys) (p : JSVal) (cid : Nat) (o : Bool) :
    logCnt (invokeHandler s p (Handler.user cid o)) cid = logCnt s cid + 1 ∧
    tickCnt (invokeHandler s p (Handler.user cid o)) cid = tickCnt s cid ∧
    (invokeHandler s p (Handler.user cid o)).table = s.table := by
  refine ⟨?_, rfl, rfl⟩
  show (s.log ++ [(cid, p)]).countP _ = _
  rw [List.countP_append, countP_singleton_pair]
  simp [logCnt]

lemma invoke_forValue_self_match (s : Sys) (p : JSVal) (name : String)
    (v : JSVal) (cid fid : Nat) (hmv : strictEq p v = true) :
    logCnt (invokeHandler s p (Handler.forValue name v cid fid)) cid = logCnt s cid ∧
    tickCnt (invokeHandler s p (Handler.forValue name v cid fid)) cid =
      tickCnt s cid + 1 ∧
    (invokeHandler s p (Handler.forValue name v cid fid)).table =
      tableOff s.table name (Handler.forValue name v cid fid) := by
  simp only [invokeHandler]
  rw [if_pos hmv]
  refine ⟨rfl, ?_, rfl⟩
  show (s.ticks ++ [Tick.invokeUser cid]).countP _ = _
  rw [List.countP_append, countP_singleton_tick]
  simp [tickCnt]

lemma invoke_forValue_self_nomatch (s : Sys) (p : JSVal) (name : String)
    (v : JSVal) (cid fid : Nat) (hmv : strictEq p v = false) :
    invokeHandler s p (Handler.forValue name v cid fid) = s := by
  simp only [invokeHandler]
  rw [hmv]
  simp

lemma sayStep_2_eq (s : Sys) (t p : JSVal) (name : String)
    (hv : validate s.validTopics t = some name) :
    (sayStep s t p).2 =
      (match (emit s name p).table.lookup name with
       | none => emit s name p
       | some hs =>
         (hs.filter isOnceH).foldl
           (fun acc fn => { acc with table := tableOff acc.table name fn })
           (emit s name p)) := by
  unfold sayStep
  rw [hv]
  dsimp only
  cases hl : (emit s name p).table.lookup name <;> rfl

lemma sayStep_OnceInv (cid : Nat) (s : Sys) (t p : JSVal)
    (hfire : fireCnt s cid ≤ 1) (hshape : shapeBT s.table cid = true) :
    fireCnt (sayStep s t p).2 cid ≤ 1 ∧
    shapeBT (sayStep s t p).2.table cid = true := by
  cases hv : validate s.validTopics t with
  | none =>
    have he : (sayStep s t p).2 = s := by
      unfold sayStep
      rw [hv]
    rw [he]
    exact ⟨hfire, hshape⟩
  | some name =>
    have heq := sayStep_2_eq s t p name hv
    cases hl : s.table.lookup name with
    | none =>
      have hes : emit s name p = s := emit_eq_self s name p hl
      rw [hes] at heq
      have hout : (sayStep s t p).2 = s := by rw [heq, hl]
      rw [hout]
      exact ⟨hfire, hshape⟩
    | some hs =>
      have hef : emit s name p = hs.foldl (fun acc h => invokeHandler acc p h) s :=
        emit_eq_fold s name p hs hl
      by_cases hzero : hs.countP (hasCid cid) = 0
      · -- no handler of cid under this topic: everything is preserved
        have hno : ∀ h ∈ hs, hasCid cid h = false :=
          fun h hm => eq_false_of_ne_true (List.countP_eq_zero.mp hzero h hm)
        obtain ⟨e1, e2, e3, e4, e5, e6⟩ := foldInvoke_nocid cid p hs s hno
        rw [← hef] at e1 e2 e3 e4 e5 e6
        cases hl1 : (emit s name p).table.lookup name with
        | none =>
          have hout : (sayStep s t p).2 = emit s name p := by rw [heq, hl1]
          rw [hout]
          refine ⟨?_, shapeBT_mono _ _ _ e4 hshape⟩
          unfold fireCnt at hfire ⊢
          omega
        | some l1 =>
          have hout : (sayStep s t p).2 =
              (l1.filter isOnceH).foldl
                (fun acc fn => { acc with table := tableOff acc.table name fn })
                (emit s name p) := by rw [heq, hl1]
          rw [hout]
          constructor
          · unfold fireCnt at hfire ⊢
            rw [removalFold_logCnt, removalFold_tickCnt]
            have hrem := removalFold_tbl_le (l1.filter isOnceH) (emit s name p) name cid
            omega
          · exact shapeBT_mono _ _ _
              (entryMono_trans e4 (removalFold_entryMono _ _ _)) hshape
      · -- exactly one handler of cid sits under this topic
        have hcpos : 1 ≤ hs.countP (hasCid cid) := Nat.one_le_iff_ne_zero.mpr hzero
        have hentle := entry_countP_le_tblCntT s.table name hs cid hl
        have htbl1 : tblCntT s.table cid = 1 := by
          unfold fireCnt at hfire
          omega
        have hlog0 : logCnt s cid = 0 := by
          unfold fireCnt at hfire
          omega
        have htick0 : tickCnt s cid = 0 := by
          unfold fireCnt at hfire
          omega
        have hone : hs.countP (hasCid cid) = 1 := by omega
        rcases countP_eq_one_split _ hs hone with ⟨a, h0, b, hsplit, hch0, hpa, hpb⟩
        have hmemh0 : h0 ∈ hs := by
          rw [hsplit]
          exact List.mem_append.mpr (Or.inr (List.mem_cons_self _ _))
        have hchT : cntHT s.table h0 = 1 := by
          have hup := cntHT_le_tblCntT s.table h0 cid hch0
          have hlow : 1 ≤ hs.count h0 := List.one_le_count_iff.mpr hmemh0
          have h2 := entry_count_le_cntHT s.table name hs h0 hl
          omega
        have hnoa : ∀ h ∈ a, hasCid cid h = false :=
          fun h hm => eq_false_of_ne_true (List.countP_eq_zero.mp hpa h hm)
        have hnob : ∀ h ∈ b, hasCid cid h = false :=
          fun h hm => eq_false_of_ne_true (List.countP_eq_zero.mp hpb h hm)
        -- decompose the emit fold around the unique handler
        have hfold : emit s name p =
            b.foldl (fun acc h => invokeHandler acc p h)
              (invokeHandler
                (a.foldl (fun acc h => invokeHandler acc p h) s) p h0) := by
          rw [hef, hsplit, List.foldl_append, List.foldl_cons]
        obtain ⟨a1, a2, a3, a4, a5, a6⟩ :=
          foldInvoke_nocid cid p a s hnoa
        rcases a5 name hs hl with ⟨lA, hlA, hkeepA⟩
        have hmemA : h0 ∈ lA := hkeepA h0 hch0 hmemh0
        have hchA : cntHT (a.foldl (fun acc h => invokeHandler acc p h) s).table h0 =
            1 := by rw [a6 h0 hch0, hchT]
        rcases shape_elim s.table cid name hs h0 hshape hl hmemh0 hch0 with
          hform | ⟨v0, fid0, hform⟩
        · -- the handler is a listenOnce registration
          subst hform
          obtain ⟨u1, u2, u3⟩ :=
            invoke_user_self (a.foldl (fun acc h => invokeHandler acc p h) s) p cid true
          obtain ⟨b1, b2, b3, b4, b5, b6⟩ :=
            foldInvoke_nocid cid p b
              (invokeHandler
                (a.foldl (fun acc h => invokeHandler acc p h) s) p
                (Handler.user cid true)) hnob
          rw [← hfold] at b1 b2 b3 b4 b5 b6
          -- the emitted state: log went up by one, table still holds the handler
          have hlogE : logCnt (emit s name p) cid = 1 := by
            rw [b1, u1, a1, hlog0]
          have htickE : tickCnt (emit s name p) cid = 0 := by
            rw [b2, u2, a2, htick0]
          have htblE : tblCntT (emit s name p).table cid = 1 := by
            rw [b3, u3, a3, htbl1]
          have hchE : cntHT (emit s name p).table (Handler.user cid true) = 1 := by
            rw [b6 _ hch0, u3, hchA]
          rcases b5 name lA (u3 ▸ hlA) with ⟨l1, hl1, hkeepB⟩
          have hmem1 : Handler.user cid true ∈ l1 := hkeepB _ hch0 hmemA
          have hout : (sayStep s t p).2 =
              (l1.filter isOnceH).foldl
                (fun acc fn => { acc with table := tableOff acc.table name fn })
                (emit s name p) := by rw [heq, hl1]
          rw [hout]
          have hl1le : l1.countP (hasCid cid) ≤ 1 := by
            have := entry_countP_le_tblCntT (emit s name p).table name l1 cid hl1
            omega
          have hfns : ∀ fn ∈ l1.filter isOnceH, hasCid cid fn = false ∨
              fn = Handler.user cid true := by
            intro fn hm
            rcases Bool.eq_false_or_eq_true (hasCid cid fn) with ht | hf
            · exact Or.inr (countP_le_one_unique _ l1 hl1le fn _
                (List.mem_of_mem_filter hm) hmem1 ht hch0)
            · exact Or.inl hf
          have hmemf : Handler.user cid true ∈ l1.filter isOnceH :=
            List.mem_filter.mpr ⟨hmem1, rfl⟩
          have hkill := removalFold_kills (l1.filter isOnceH) name
            (Handler.user cid true) cid hch0 hfns hmemf (emit s name p) l1 hl1
            hmem1 htblE hchE
          constructor
          · unfold fireCnt
            rw [removalFold_logCnt, removalFold_tickCnt]
            omega
          · refine shapeBT_mono _ _ _ ?_ hshape
            refine entryMono_trans ?_ (removalFold_entryMono _ _ _)
            refine entryMono_trans a4 ?_
            exact u3 ▸ b4
        · -- the handler is a listenFor closure for this very topic
          subst hform
          by_cases hmv : strictEq p v0 = true
          · obtain ⟨f1, f2, f3⟩ := invoke_forValue_self_match
              (a.foldl (fun acc h => invokeHandler acc p h) s) p name v0 cid fid0 hmv
            have hoffA := tblCntT_off_unique
              (a.foldl (fun acc h => invokeHandler acc p h) s).table name
              (Handler.forValue name v0 cid fid0) cid hch0 lA hlA hmemA hchA
            obtain ⟨b1, b2, b3, b4, b5, b6⟩ :=
              foldInvoke_nocid cid p b
                (invokeHandler
                  (a.foldl (fun acc h => invokeHandler acc p h) s) p
                  (Handler.forValue name v0 cid fid0)) hnob
            rw [← hfold] at b1 b2 b3 b4 b5 b6
            have hlogE : logCnt (emit s name p) cid = 0 := by
              rw [b1, f1, a1, hlog0]
            have htickE : tickCnt (emit s name p) cid = 1 := by
              rw [b2, f2, a2, htick0]
            have htblE : tblCntT (emit s name p).table cid = 0 := by
              rw [b3, f3]
              have : tblCntT
                  (a.foldl (fun acc h => invokeHandler acc p h) s).table cid = 1 := by
                rw [a3, htbl1]
              omega
            -- the key still exists after the self-removal
            have hlA2 : (invokeHandler
                (a.foldl (fun acc h => invokeHandler acc p h) s) p
                (Handler.forValue name v0 cid fid0)).table.lookup name =
                some (removeFirst (Handler.forValue name v0 cid fid0) lA) := by
              rw [f3]
              unfold tableOff
              rw [lookup_updTable_self, hlA]
              rfl
            rcases b5 name _ hlA2 with ⟨l1, hl1, _⟩
            have hout : (sayStep s t p).2 =
                (l1.filter isOnceH).foldl
                  (fun acc fn => { acc with table := tableOff acc.table name fn })
                  (emit s name p) := by rw [heq, hl1]
            rw [hout]
            have hrem := removalFold_tbl_le (l1.filter isOnceH) (emit s name p) name cid
            constructor
            · unfold fireCnt
              rw [removalFold_logCnt, removalFold_tickCnt]
              omega
            · refine shapeBT_mono _ _ _ ?_ hshape
              refine entryMono_trans ?_ (removalFold_entryMono _ _ _)
              refine entryMono_trans a4 ?_
              refine entryMono_trans ?_ b4
              rw [f3]
              exact entryMono_tableOff _ _ _
          · have hmv2 : strictEq p v0 = false := eq_false_of_ne_true hmv
            have hid := invoke_forValue_self_nomatch
              (a.foldl (fun acc h => invokeHandler acc p h) s) p name v0 cid fid0 hmv2
            obtain ⟨b1, b2, b3, b4, b5, b6⟩ :=
              foldInvoke_nocid cid p b
                (invokeHandler
                  (a.foldl (fun acc h => invokeHandler acc p h) s) p
                  (Handler.forValue name v0 cid fid0)) hnob
            rw [← hfold] at b1 b2 b3 b4 b5 b6
            rw [hid] at b1 b2 b3 b4 b5 b6
            have hlogE : logCnt (emit s name p) cid = 0 := by rw [b1, a1, hlog0]
            have htickE : tickCnt (emit s name p) cid = 0 := by rw [b2, a2, htick0]
            have htblE : tblCntT (emit s name p).table cid = 1 := by rw [b3, a3, htbl1]
            rcases b5 name lA hlA with ⟨l1, hl1, hkeepB⟩
            have hmem1 : Handler.forValue name v0 cid fid0 ∈ l1 :=
              hkeepB _ hch0 hmemA
            have hout : (sayStep s t p).2 =
                (l1.filter isOnceH).foldl
                  (fun acc fn => { acc with table := tableOff acc.table name fn })
                  (emit s name p) := by rw [heq, hl1]
            rw [hout]
            have hl1le : l1.countP (hasCid cid) ≤ 1 := by
              have := entry_countP_le_tblCntT (emit s name p).table name l1 cid hl1
              omega
            have hfnsno : ∀ fn ∈ l1.filter isOnceH, hasCid cid fn = false := by
              intro fn hm
              rcases Bool.eq_false_or_eq_true (hasCid cid fn) with ht | hf
              · exfalso
                have heqf := countP_le_one_unique _ l1 hl1le fn _
                  (List.mem_of_mem_filter hm) hmem1 ht hch0
                have honce : isOnceH fn = true := (List.mem_filter.mp hm).2
                rw [heqf] at honce
                cases honce
              · exact hf
            have hremeq := removalFold_tbl_nocid (l1.filter isOnceH)
              (emit s name p) name cid hfnsno
            constructor
            · unfold fireCnt
              rw [removalFold_logCnt, removalFold_tickCnt]
              omega
            · refine shapeBT_mono _ _ _ ?_ hshape
              exact entryMono_trans (entryMono_trans a4 b4)
                (removalFold_entryMono _ _ _)

lemma countP_singleton_handler (q : Handler → Bool) (a : Handler) :
    List.countP q [a] = if q a then 1 else 0 := by
  rw [List.countP_cons, List.countP_nil]
  omega

lemma tblCntT_tableOn_nocid (t : List (String × List Handler)) (k : String)
    (h : Handler) (cid : Nat) (hh : hasCid cid h = false) :
    tblCntT (tableOn t k h) cid = tblCntT t cid := by
  unfold tableOn
  cases hl : t.lookup k with
  | some l =>
    apply tblCntT_updTable_congr
    intro l2
    rw [List.countP_append, countP_singleton_handler, hh]
    simp
  | none =>
    unfold tblCntT
    rw [List.map_append, List.sum_append]
    simp only [List.map_cons, List.map_nil, List.sum_cons, List.sum_nil]
    rw [countP_singleton_handler, hh]
    simp

lemma tblCntT_tableDelete_le (t : List (String × List Handler)) (k : String)
    (cid : Nat) : tblCntT (tableDelete t k) cid ≤ tblCntT t cid := by
  induction t with
  | nil => exact Nat.le_refl _
  | cons kv rest ih =>
    unfold tableDelete at ih ⊢
    unfold tblCntT at ih ⊢
    rw [List.filter_cons]
    by_cases hk : (kv.1 != k) = true
    · rw [if_pos hk]
      simp only [List.map_cons, List.sum_cons]
      omega
    · rw [if_neg hk]
      simp only [List.map_cons, List.sum_cons]
      omega

lemma ticksFold_ticks (ts : List Tick) (s0 : Sys) :
    ((ts.foldl
        (fun acc t =>
          match t with
          | Tick.invokeUser cid => { acc with log := acc.log ++ [(cid, JSVal.undef)] }
          | Tick.deleteKey k => { acc with table := tableDelete acc.table k }) s0).ticks) =
      s0.ticks := by
  induction ts generalizing s0 with
  | nil => rfl
  | cons t rest ih =>
    rw [List.foldl_cons, ih]
    cases t <;> rfl

lemma ticksFold_log (ts : List Tick) (s0 : Sys) (cid : Nat) :
    logCnt (ts.foldl
        (fun acc t =>
          match t with
          | Tick.invokeUser cid => { acc with log := acc.log ++ [(cid, JSVal.undef)] }
          | Tick.deleteKey k => { acc with table := tableDelete acc.table k }) s0) cid =
      logCnt s0 cid +
        ts.countP (fun t =>
          match t with | Tick.invokeUser c => c == cid | Tick.deleteKey _ => false) := by
  induction ts generalizing s0 with
  | nil => rfl
  | cons t rest ih =>
    rw [List.foldl_cons, List.countP_cons]
    cases t with
    | invokeUser c =>
      rw [ih]
      have : logCnt { s0 with log := s0.log ++ [(c, JSVal.undef)] } cid =
          logCnt s0 cid + (if (c == cid) = true then 1 else 0) := by
        unfold logCnt
        rw [List.countP_append, countP_singleton_pair]
      rw [this]
      have hm : (match Tick.invokeUser c with
          | Tick.invokeUser c => c == cid
          | Tick.deleteKey _ => false) = (c == cid) := rfl
      rw [hm]
      omega
    | deleteKey k =>
      rw [ih]
      rfl

lemma ticksFold_tbl (ts : List Tick) (s0 : Sys) (cid : Nat) :
    tblCntT ((ts.foldl
        (fun acc t =>
          match t with
          | Tick.invokeUser cid => { acc with log := acc.log ++ [(cid, JSVal.undef)] }
          | Tick.deleteKey k => { acc with table := tableDelete acc.table k }) s0).table) cid ≤
        tblCntT s0.table cid ∧
      entryMono s0.table ((ts.foldl
        (fun acc t =>
          match t with
          | Tick.invokeUser cid => { acc with log := acc.log ++ [(cid, JSVal.undef)] }
          | Tick.deleteKey k => { acc with table := tableDelete acc.table k }) s0).table) := by
  induction ts generalizing s0 with
  | nil => exact ⟨Nat.le_refl _, entryMono_refl _⟩
  | cons t rest ih =>
    rw [List.foldl_cons]
    cases t with
    | invokeUser c => exact ih { s0 with log := s0.log ++ [(c, JSVal.undef)] }
    | deleteKey k =>
      have h := ih { s0 with table := tableDelete s0.table k }
      exact ⟨Nat.le_trans h.1 (tblCntT_tableDelete_le _ _ _),
        entryMono_trans (entryMono_tableDelete _ _) h.2⟩

lemma runTicks_OnceInv (cid : Nat) (s : Sys)
    (hfire : fireCnt s cid ≤ 1) (hshape : shapeBT s.table cid = true) :
    fireCnt (runTicksStep s) cid ≤ 1 ∧ shapeBT (runTicksStep s).table cid = true := by
  unfold runTicksStep
  have hlog := ticksFold_log s.ticks { s with ticks := [] } cid
  have htick := ticksFold_ticks s.ticks { s with ticks := [] }
  have htbl := ticksFold_tbl s.ticks { s with ticks := [] } cid
  constructor
  · unfold fireCnt at hfire ⊢
    have h1 : logCnt { s with ticks := ([] : List Tick) } cid = logCnt s cid := rfl
    have h2 : tickCnt (s.ticks.foldl
        (fun acc t =>
          match t with
          | Tick.invokeUser cid => { acc with log := acc.log ++ [(cid, JSVal.undef)] }
          | Tick.deleteKey k => { acc with table := tableDelete acc.table k })
        { s with ticks := [] }) cid = 0 := by
      unfold tickCnt
      rw [htick]
      rfl
    have h3 : tblCntT ({ s with ticks := ([] : List Tick) }).table cid =
        tblCntT s.table cid := rfl
    have h4 : s.ticks.countP (fun t =>
        match t with | Tick.invokeUser c => c == cid | Tick.deleteKey _ => false) =
        tickCnt s cid := rfl
    rw [hlog, h1, h2, h4]
    have h5 := htbl.1
    rw [h3] at h5
    omega
  · exact shapeBT_mono _ _ _ htbl.2 hshape

/-- Commands that can fire or re-register callback `cid`: a fresh
registration of the same callback, and `respond`, whose bare `emit`
bypasses the once-removal pass of `say`. -/
def allowedCmd (cid : Nat) : Cmd → Bool
  | .listen _ c => !(c == cid)
  | .listenOnce _ c => !(c == cid)
  | .listenFor _ _ c => !(c == cid)
  | .respond _ _ => false
  | _ => true

lemma addTopicStep_frame (s : Sys) (a : AddArg) :
    (addTopicStep s a).2.table = s.table ∧ (addTopicStep s a).2.ticks = s.ticks ∧
      (addTopicStep s a).2.log = s.log := by
  unfold addTopicStep addTopicFinish
  cases ho : addTopicLoop s.validTopics (addTopicNames a) with
  | mk o vt => cases o <;> exact ⟨rfl, rfl, rfl⟩

lemma OnceInv_of_frame (cid : Nat) (s s2 : Sys)
    (ht : s2.table = s.table) (hk : s2.ticks = s.ticks) (hl : s2.log = s.log)
    (hfire : fireCnt s cid ≤ 1) (hshape : shapeBT s.table cid = true) :
    fireCnt s2 cid ≤ 1 ∧ shapeBT s2.table cid = true := by
  constructor
  · unfold fireCnt logCnt tickCnt at hfire ⊢
    rw [ht, hk, hl]
    exact hfire
  · rw [ht]
    exact hshape

lemma OnceInv_tableOn_nocid (cid : Nat) (s s2 : Sys) (k : String) (h : Handler)
    (hh : hasCid cid h = false)
    (ht : s2.table = tableOn s.table k h) (hk : s2.ticks = s.ticks)
    (hl : s2.log = s.log)
    (hfire : fireCnt s cid ≤ 1) (hshape : shapeBT s.table cid = true) :
    fireCnt s2 cid ≤ 1 ∧ shapeBT s2.table cid = true := by
  constructor
  · unfold fireCnt logCnt tickCnt at hfire ⊢
    rw [ht, hk, hl, tblCntT_tableOn_nocid _ _ _ _ hh]
    exact hfire
  · rw [ht]
    exact shapeBT_tableOn_nocid _ _ _ _ hh hshape

lemma step_OnceInv (cid : Nat) (s : Sys) (c : Cmd)
    (hc : allowedCmd cid c = true)
    (hfire : fireCnt s cid ≤ 1) (hshape : shapeBT s.table cid = true) :
    fireCnt (step s c) cid ≤ 1 ∧ shapeBT (step s c).table cid = true := by
  cases c with
  | addTopic a =>
    have hf := addTopicStep_frame s a
    exact OnceInv_of_frame cid s _ hf.1 hf.2.1 hf.2.2 hfire hshape
  | listen t c2 =>
    have hcc : (c2 == cid) = false := by simpa [allowedCmd] using hc
    unfold step stepE listenStep
    dsimp only
    cases hv : validate s.validTopics t with
    | none => exact ⟨hfire, hshape⟩
    | some name =>
      dsimp only
      exact OnceInv_tableOn_nocid cid s _ name (Handler.user c2 false) hcc
        rfl rfl rfl hfire hshape
  | listenOnce t c2 =>
    have hcc : (c2 == cid) = false := by simpa [allowedCmd] using hc
    unfold step stepE listenOnceStep
    dsimp only
    cases hv : validate s.validTopics t with
    | none => exact ⟨hfire, hshape⟩
    | some name =>
      dsimp only
      exact OnceInv_tableOn_nocid cid s _ name (Handler.user c2 true) hcc
        rfl rfl rfl hfire hshape
  | listenFor t v c2 =>
    have hcc : (c2 == cid) = false := by simpa [allowedCmd] using hc
    unfold step stepE listenForStep
    dsimp only
    cases hv : validate s.validTopics t with
    | none => exact ⟨hfire, hshape⟩
    | some name =>
      dsimp only
      by_cases hp : isPrimitive v
      · rw [if_pos hp]
        exact OnceInv_tableOn_nocid cid s _ name
          (Handler.forValue name v c2 s.fnCtr) hcc rfl rfl rfl hfire hshape
      · rw [if_neg hp]
        exact ⟨hfire, hshape⟩
  | say t p =>
    exact sayStep_OnceInv cid s t p hfire hshape
  | cancel t =>
    unfold step stepE cancelStep
    dsimp only
    cases hv : validate s.validTopics t with
    | none => exact ⟨hfire, hshape⟩
    | some name =>
      dsimp only
      constructor
      · unfold fireCnt logCnt tickCnt at hfire ⊢
        dsimp only
        have := tblCntT_tableDelete_le s.table name cid
        omega
      · exact shapeBT_mono _ _ _ (entryMono_tableDelete s.table name) hshape
  | cancelAll =>
    constructor
    · have h0 : fireCnt { s with table := ([] : List (String × List Handler)) } cid =
          logCnt s cid + tickCnt s cid := rfl
      show fireCnt { s with table := ([] : List (String × List Handler)) } cid ≤ 1
      rw [h0]
      unfold fireCnt at hfire
      omega
    · rfl
  | request t q rid =>
    unfold step stepE requestStep
    dsimp only
    cases hv : validate s.validTopics t with
    | none =>
      dsimp only
      exact OnceInv_of_frame cid s _ rfl rfl rfl hfire hshape
    | some name =>
      dsimp only
      have hbase := OnceInv_tableOn_nocid cid s
        { s with
          table := tableOn s.table (mkUid s.uidCtr)
            (Handler.correlation rid (mkUid s.uidCtr))
          uidCtr := s.uidCtr + 1
          reqs := s.reqs ++ [(⟨rid, mkUid s.uidCtr, PromiseState.pending⟩ : ReqRec)]
          timers := s.timers ++ [(⟨s.now + s.requestTTL, rid, true⟩ : Timer)] }
        (mkUid s.uidCtr) (Handler.correlation rid (mkUid s.uidCtr)) rfl
        rfl rfl rfl hfire hshape
      exact sayStep_OnceInv cid
        { s with
          table := tableOn s.table (mkUid s.uidCtr)
            (Handler.correlation rid (mkUid s.uidCtr))
          uidCtr := s.uidCtr + 1
          reqs := s.reqs ++ [(⟨rid, mkUid s.uidCtr, PromiseState.pending⟩ : ReqRec)]
          timers := s.timers ++ [(⟨s.now + s.requestTTL, rid, true⟩ : Timer)] }
        t (JSVal.reqPayload (mkUid s.uidCtr) q) hbase.1 hbase.2
  | respond tn a => simp [allowedCmd] at hc
  | runTicks =>
    exact runTicks_OnceInv cid s hfire hshape
  | advance d =>
    exact OnceInv_of_frame cid s _ rfl rfl rfl hfire hshape

lemma run_OnceInv (cid : Nat) (cs : List Cmd) (s : Sys)
    (hall : ∀ c ∈ cs, allowedCmd cid c = true)
    (hfire : fireCnt s cid ≤ 1) (hshape : shapeBT s.table cid = true) :
    fireCnt (run s cs) cid ≤ 1 ∧ shapeBT (run s cs).table cid = true := by
  induction cs generalizing s with
  | nil => exact ⟨hfire, hshape⟩
  | cons c rest ih =>
    have h1 := step_OnceInv cid s c (hall c (List.mem_cons_self _ _)) hfire hshape
    have h2 := ih (step s c) (fun c2 hm => hall c2 (List.mem_cons_of_mem _ hm)) h1.1 h1.2
    unfold run at h2 ⊢
    rw [List.foldl_cons]
    exact h2

lemma updTable_of_no_key (t : List (String × List Handler)) (k : String)
    (f : List Handler → List Handler) (hnk : ∀ kv ∈ t, kv.1 ≠ k) :
    updTable t k f = t := by
  induction t with
  | nil => rfl
  | cons kv rest ih =>
    unfold updTable at ih ⊢
    rw [List.map_cons]
    rw [if_neg (hnk kv (List.mem_cons_self _ _))]
    rw [ih (fun kv2 hm => hnk kv2 (List.mem_cons_of_mem _ hm))]

lemma tblCntT_updTable_append (t : List (String × List Handler)) (k : String)
    (h : Handler) (cid : Nat) (hnd : (t.map Prod.fst).Nodup) :
    tblCntT (updTable t k (fun hs => hs ++ [h])) cid ≤ tblCntT t cid + 1 := by
  induction t with
  | nil => exact Nat.zero_le _
  | cons kv rest ih =>
    rw [List.map_cons, List.nodup_cons] at hnd
    unfold updTable at ih ⊢
    unfold tblCntT at ih ⊢
    beta_reduce at ih ⊢
    simp only [List.map_cons, List.sum_cons]
    by_cases hk : kv.1 = k
    · rw [if_pos hk]
      have hnk : ∀ kv2 ∈ rest, kv2.1 ≠ k := by
        intro kv2 hm heq
        refine hnd.1 ?_
        rw [hk, ← heq]
        exact List.mem_map_of_mem Prod.fst hm
      have hrest : (rest.map (fun kv =>
          if kv.1 = k then (kv.1, kv.2 ++ [h]) else kv)) = rest := by
        show updTable rest k (fun hs => hs ++ [h]) = rest
        exact updTable_of_no_key rest k _ hnk
      rw [hrest]
      have hc : List.countP (hasCid cid) ((kv.1, kv.2 ++ [h]).2) ≤
          List.countP (hasCid cid) kv.2 + 1 := by
        show List.countP (hasCid cid) (kv.2 ++ [h]) ≤ List.countP (hasCid cid) kv.2 + 1
        rw [List.countP_append, countP_singleton_handler]
        by_cases hh : hasCid cid h = true
        · rw [if_pos hh]
        · rw [if_neg hh]
          omega
      omega
    · rw [if_neg hk]
      have := ih hnd.2
      omega

lemma tblCntT_tableOn_le (t : List (String × List Handler)) (k : String)
    (h : Handler) (cid : Nat) (hnd : (t.map Prod.fst).Nodup) :
    tblCntT (tableOn t k h) cid ≤ tblCntT t cid + 1 := by
  unfold tableOn
  cases hl : t.lookup k with
  | some l => exact tblCntT_updTable_append t k h cid hnd
  | none =>
    unfold tblCntT
    rw [List.map_append, List.sum_append]
    simp only [List.map_cons, List.map_nil, List.sum_cons, List.sum_nil]
    rw [countP_singleton_handler]
    by_cases hh : hasCid cid h = true
    · rw [if_pos hh]
      omega
    · rw [if_neg hh]
      omega

lemma shapeBT_of_zero (t : List (String × List Handler)) (cid : Nat)
    (h0 : tblCntT t cid = 0) : shapeBT t cid = true := by
  unfold shapeBT
  rw [List.all_eq_true]
  intro kv hkv
  rw [List.all_eq_true]
  intro h2 hh2
  have hcnt : kv.2.countP (hasCid cid) = 0 := by
    unfold tblCntT at h0
    have := (List.sum_eq_zero_iff).mp h0 (kv.2.countP (hasCid cid))
      (List.mem_map_of_mem (fun kv2 => kv2.2.countP (hasCid cid)) hkv)
    exact this
  have hno : hasCid cid h2 = false :=
    eq_false_of_ne_true (List.countP_eq_zero.mp hcnt h2 hh2)
  unfold goodHandlerB
  rw [hno]
  rfl

lemma shapeBT_tableOn_allgood (t : List (String × List Handler)) (k : String)
    (h : Handler) (cid : Nat) (hgood : ∀ k2, goodHandlerB cid k2 h = true)
    (hs : shapeBT t cid = true) : shapeBT (tableOn t k h) cid = true := by
  unfold tableOn
  cases hl : t.lookup k with
  | some l =>
    unfold shapeBT at hs ⊢
    unfold updTable
    rw [List.all_eq_true] at hs ⊢
    intro kv2 hkv2
    rcases List.mem_map.mp hkv2 with ⟨kv, hkv, heq⟩
    have hold := hs kv hkv
    by_cases hk : kv.1 = k
    · rw [if_pos hk] at heq
      rw [← heq]
      rw [List.all_eq_true] at hold ⊢
      intro h2 hh2
      rcases List.mem_append.mp hh2 with h3 | h3
      · exact hold h2 h3
      · rw [List.mem_singleton.mp h3]
        exact hgood _
    · rw [if_neg hk] at heq
      rw [← heq]
      exact hold
  | none =>
    unfold shapeBT at hs ⊢
    rw [List.all_eq_true] at hs ⊢
    intro kv2 hkv2
    rcases List.mem_append.mp hkv2 with h3 | h3
    · exact hs kv2 h3
    · rw [List.mem_singleton.mp h3]
      rw [List.all_eq_true]
      intro h2 hh2
      rw [List.mem_singleton.mp hh2]
      exact hgood _

lemma listenOnce_start_inv (cid : Nat) (s0 : Sys) (t : JSVal)
    (hfresh : fireCnt s0 cid = 0) (hnd : (s0.table.map Prod.fst).Nodup) :
    fireCnt (step s0 (Cmd.listenOnce t cid)) cid ≤ 1 ∧
      shapeBT (step s0 (Cmd.listenOnce t cid)).table cid = true := by
  have htbl : tblCntT s0.table cid = 0 := by
    unfold fireCnt at hfresh
    omega
  unfold step stepE listenOnceStep
  dsimp only
  cases hv : validate s0.validTopics t with
  | none =>
    refine ⟨?_, shapeBT_of_zero _ _ htbl⟩
    rw [hfresh]
    omega
  | some name =>
    dsimp only
    constructor
    · unfold fireCnt logCnt tickCnt at hfresh ⊢
      dsimp only
      have := tblCntT_tableOn_le s0.table name (Handler.user cid true) cid hnd
      omega
    · exact shapeBT_tableOn_allgood _ _ _ _
        (fun k2 => by simp [goodHandlerB]) (shapeBT_of_zero _ _ htbl)

/-- Claim C5: a callback registered through `listenOnce` runs at most once in
total — over any subsequent client activity that does not re-register the same
callback and does not `respond` (whose bare `emit` bypasses the once-removal
pass of `say`) — even when `say` is invoked twice in rapid succession before
the deferred deliveries are drained; and in the concrete rapid-succession
scenario the once-entry is removed from the table synchronously within the
first `say` itself (no table entry and no pending tick survives the call),
not inside the asynchronous callback. -/
theorem c5_listenOnce_fires_at_most_once (s0 : Sys) (t : JSVal) (cid : Nat)
    (cs : List Cmd) (hfresh : fireCnt s0 cid = 0)
    (hnd : (s0.table.map Prod.fst).Nodup)
    (hall : ∀ c ∈ cs, allowedCmd cid c = true) :
    logCnt (run (step s0 (Cmd.listenOnce t cid)) cs) cid ≤ 1 ∧
    tblCntT (step (step initTopico (Cmd.listenOnce infoTok 7))
        (Cmd.say infoTok (JSVal.str "x"))).table 7 = 0 ∧
    tickCnt (step (step initTopico (Cmd.listenOnce infoTok 7))
        (Cmd.say infoTok (JSVal.str "x"))) 7 = 0 ∧
    logCnt (step (step initTopico (Cmd.listenOnce infoTok 7))
        (Cmd.say infoTok (JSVal.str "x"))) 7 = 1 ∧
    logCnt (run (step initTopico (Cmd.listenOnce infoTok 7))
        [Cmd.say infoTok (JSVal.str "x"), Cmd.say infoTok (JSVal.str "y"),
         Cmd.runTicks]) 7 = 1 := by
  refine ⟨?_, by decide, by decide, by decide, by decide⟩
  have hstart := listenOnce_start_inv cid s0 t hfresh hnd
  have hrun := run_OnceInv cid cs (step s0 (Cmd.listenOnce t cid)) hall
    hstart.1 hstart.2
  have hb := hrun.1
  unfold fireCnt at hb
  omega

theorem c5_listenOnce_fires_at_most_once_witness :
    fireCnt initTopico 7 = 0 ∧ (initTopico.table.map Prod.fst).Nodup ∧
    logCnt (run (step initTopico (Cmd.listenOnce infoTok 7))
      [Cmd.say infoTok (JSVal.str "x"), Cmd.say infoTok (JSVal.str "y"),
       Cmd.runTicks]) 7 ≤ 1 :=
  ⟨by decide, by decide,
    (c5_listenOnce_fires_at_most_once initTopico infoTok 7
      [Cmd.say infoTok (JSVal.str "x"), Cmd.say infoTok (JSVal.str "y"),
       Cmd.runTicks] (by decide) (by decide) (by decide)).1⟩

/-- A handler of callback `cid` is an armed `listenFor` closure for value
`V`: `listenFor` stores the matching closure and nothing else ever registers
that callback. -/
def armedB (cid : Nat) (V : JSVal) (h : Handler) : Bool :=
  !(hasCid cid h) ||
    (match h with
     | .forValue _ v _ _ => v == V
     | _ => false)

/-- Every handler of `cid` anywhere in the table is an armed closure for
`V`. -/
def armedT (t : List (String × List Handler)) (cid : Nat) (V : JSVal) : Bool :=
  t.all (fun kv => kv.2.all (armedB cid V))

lemma armedT_mono (t t2 : List (String × List Handler)) (cid : Nat) (V : JSVal)
    (hrel : entryMono t t2) (h : armedT t cid V = true) : armedT t2 cid V = true := by
  unfold armedT at h ⊢
  rw [List.all_eq_true] at h ⊢
  intro kv2 hkv2
  rcases hrel kv2 hkv2 with ⟨kv, hkv, hkey, hsub⟩
  rw [List.all_eq_true]
  intro h2 hh2
  have h3 := h kv hkv
  rw [List.all_eq_true] at h3
  exact h3 h2 (hsub h2 hh2)

lemma armedT_of_zero (t : List (String × List Handler)) (cid : Nat) (V : JSVal)
    (h0 : tblCntT t cid = 0) : armedT t cid V = true := by
  unfold armedT
  rw [List.all_eq_true]
  intro kv hkv
  rw [List.all_eq_true]
  intro h2 hh2
  have hcnt : kv.2.countP (hasCid cid) = 0 := by
    unfold tblCntT at h0
    exact (List.sum_eq_zero_iff).mp h0 (kv.2.countP (hasCid cid))
      (List.mem_map_of_mem (fun kv2 => kv2.2.countP (hasCid cid)) hkv)
  have hno : hasCid cid h2 = false :=
    eq_false_of_ne_true (List.countP_eq_zero.mp hcnt h2 hh2)
  unfold armedB
  rw [hno]
  rfl

lemma armedT_tableOn (t : List (String × List Handler)) (k : String)
    (h : Handler) (cid : Nat) (V : JSVal) (hgood : armedB cid V h = true)
    (hs : armedT t cid V = true) : armedT (tableOn t k h) cid V = true := by
  unfold tableOn
  cases hl : t.lookup k with
  | some l =>
    unfold armedT at hs ⊢
    unfold updTable
    rw [List.all_eq_true] at hs ⊢
    intro kv2 hkv2
    rcases List.mem_map.mp hkv2 with ⟨kv, hkv, heq⟩
    have hold := hs kv hkv
    by_cases hk : kv.1 = k
    · rw [if_pos hk] at heq
      rw [← heq]
      rw [List.all_eq_true] at hold ⊢
      intro h2 hh2
      rcases List.mem_append.mp hh2 with h3 | h3
      · exact hold h2 h3
      · rw [List.mem_singleton.mp h3]
        exact hgood
    · rw [if_neg hk] at heq
      rw [← heq]
      exact hold
  | none =>
    unfold armedT at hs ⊢
    rw [List.all_eq_true] at hs ⊢
    intro kv2 hkv2
    rcases List.mem_append.mp hkv2 with h3 | h3
    · exact hs kv2 h3
    · rw [List.mem_singleton.mp h3]
      rw [List.all_eq_true]
      intro h2 hh2
      rw [List.mem_singleton.mp hh2]
      exact hgood

lemma invoke_armed (cid : Nat) (V p : JSVal) (h : Handler) (s : Sys)
    (hno : strictEq p V = false) (hh : armedB cid V h = true)
    (harm : armedT s.table cid V = true) :
    logCnt (invokeHandler s p h) cid = logCnt s cid ∧
    tickCnt (invokeHandler s p h) cid = tickCnt s cid ∧
    armedT (invokeHandler s p h).table cid V = true := by
  cases h with
  | user c b =>
    have hc : (c == cid) = false := by
      simp only [armedB, hasCid] at hh
      cases hcc : (c == cid) with
      | false => rfl
      | true =>
        rw [hcc] at hh
        simp at hh
    refine ⟨?_, rfl, harm⟩
    simp only [invokeHandler]
    unfold logCnt
    dsimp only
    rw [List.countP_append, countP_singleton_pair]
    dsimp only
    rw [hc]
    simp
  | forValue tn v c fid =>
    by_cases hm : strictEq p v = true
    · by_cases hc : (c == cid) = true
      · have hv : (v == V) = true := by
          simp only [armedB, hasCid] at hh
          rw [hc] at hh
          simpa using hh
        have hveq : v = V := eq_of_beq hv
        rw [hveq] at hm
        rw [hm] at hno
        cases hno
      · have hc2 : (c == cid) = false := eq_false_of_ne_true hc
        simp only [invokeHandler]
        rw [if_pos hm]
        refine ⟨rfl, ?_, ?_⟩
        · unfold tickCnt
          dsimp only
          rw [List.countP_append, countP_singleton_tick]
          dsimp only
          rw [hc2]
          simp
        · exact armedT_mono _ _ _ _ (entryMono_tableOff _ _ _) harm
    · have hm2 : strictEq p v = false := eq_false_of_ne_true hm
      simp only [invokeHandler]
      rw [if_neg hm]
      exact ⟨rfl, rfl, harm⟩
  | correlation rid tn =>
    refine ⟨rfl, ?_, harm⟩
    simp only [invokeHandler]
    unfold tickCnt
    dsimp only
    rw [List.countP_append, countP_singleton_tick]
    simp

lemma foldInvoke_armed (cid : Nat) (V p : JSVal) (hs : List Handler) (s : Sys)
    (hno : strictEq p V = false)
    (hhs : ∀ h ∈ hs, armedB cid V h = true)
    (harm : armedT s.table cid V = true) :
    logCnt (hs.foldl (fun acc h => invokeHandler acc p h) s) cid = logCnt s cid ∧
    tickCnt (hs.foldl (fun acc h => invokeHandler acc p h) s) cid = tickCnt s cid ∧
    armedT (hs.foldl (fun acc h => invokeHandler acc p h) s).table cid V = true := by
  induction hs generalizing s with
  | nil => exact ⟨rfl, rfl, harm⟩
  | cons h rest ih =>
    rw [List.foldl_cons]
    have h1 := invoke_armed cid V p h s hno (hhs h (List.mem_cons_self _ _)) harm
    have h2 := ih (invokeHandler s p h)
      (fun h2 hm => hhs h2 (List.mem_cons_of_mem _ hm)) h1.2.2
    exact ⟨h2.1.trans h1.1, h2.2.1.trans h1.2.1, h2.2.2⟩

lemma emit_armed (cid : Nat) (V p : JSVal) (k : String) (s : Sys)
    (hno : strictEq p V = false)
    (harm : armedT s.table cid V = true) :
    logCnt (emit s k p) cid = logCnt s cid ∧
    tickCnt (emit s k p) cid = tickCnt s cid ∧
    armedT (emit s k p).table cid V = true := by
  unfold emit
  cases hl : s.table.lookup k with
  | none => exact ⟨rfl, rfl, harm⟩
  | some hs =>
    have hmem := lookup_mem _ _ _ hl
    have hhs : ∀ h ∈ hs, armedB cid V h = true := by
      intro h2 hh2
      have h3 : List.all hs (armedB cid V) = true := by
        unfold armedT at harm
        rw [List.all_eq_true] at harm
        exact harm (k, hs) hmem
      rw [List.all_eq_true] at h3
      exact h3 h2 hh2
    exact foldInvoke_armed cid V p hs s hno hhs harm

lemma sayStep_armed (cid : Nat) (V : JSVal) (s : Sys) (t p : JSVal)
    (hno : strictEq p V = false)
    (harm : armedT s.table cid V = true) :
    logCnt (sayStep s t p).2 cid = logCnt s cid ∧
    tickCnt (sayStep s t p).2 cid = tickCnt s cid ∧
    armedT (sayStep s t p).2.table cid V = true := by
  unfold sayStep
  cases hv : validate s.validTopics t with
  | none => exact ⟨rfl, rfl, harm⟩
  | some name =>
    dsimp only
    have he := emit_armed cid V p name s hno harm
    cases hl : (emit s name p).table.lookup name with
    | none =>
      dsimp only
      exact he
    | some hs =>
      dsimp only
      refine ⟨?_, ?_, ?_⟩
      · rw [removalFold_logCnt]
        exact he.1
      · rw [removalFold_tickCnt]
        exact he.2.1
      · exact armedT_mono _ _ _ _ (removalFold_entryMono _ _ _) he.2.2

/-- Commands that can fire callback `cid` armed for value `V` or re-register
it: publishing a payload strictly equal to `V`, re-registering the callback,
and `respond` (an unchecked `emit`). -/
def quietCmd (cid : Nat) (V : JSVal) : Cmd → Bool
  | .listen _ c => !(c == cid)
  | .listenOnce _ c => !(c == cid)
  | .listenFor _ _ c => !(c == cid)
  | .say _ p => !(strictEq p V)
  | .respond _ _ => false
  | _ => true

lemma ArmedInv_of_frame (cid : Nat) (V : JSVal) (s s2 : Sys)
    (ht : s2.table = s.table) (hk : s2.ticks = s.ticks) (hl : s2.log = s.log)
    (h1 : logCnt s cid = 0) (h2 : tickCnt s cid = 0)
    (h3 : armedT s.table cid V = true) :
    logCnt s2 cid = 0 ∧ tickCnt s2 cid = 0 ∧ armedT s2.table cid V = true := by
  refine ⟨?_, ?_, ?_⟩
  · unfold logCnt at h1 ⊢
    rw [hl]
    exact h1
  · unfold tickCnt at h2 ⊢
    rw [hk]
    exact h2
  · rw [ht]
    exact h3

lemma ArmedInv_tableOn (cid : Nat) (V : JSVal) (s s2 : Sys) (k : String)
    (h : Handler) (hgood : armedB cid V h = true)
    (ht : s2.table = tableOn s.table k h) (hk : s2.ticks = s.ticks)
    (hl : s2.log = s.log)
    (h1 : logCnt s cid = 0) (h2 : tickCnt s cid = 0)
    (h3 : armedT s.table cid V = true) :
    logCnt s2 cid = 0 ∧ tickCnt s2 cid = 0 ∧ armedT s2.table cid V = true := by
  refine ⟨?_, ?_, ?_⟩
  · unfold logCnt at h1 ⊢
    rw [hl]
    exact h1
  · unfold tickCnt at h2 ⊢
    rw [hk]
    exact h2
  · rw [ht]
    exact armedT_tableOn _ _ _ _ _ hgood h3

lemma step_ArmedInv (cid : Nat) (V : JSVal) (s : Sys) (c : Cmd)
    (hc : quietCmd cid V c = true)
    (h1 : logCnt s cid = 0) (h2 : tickCnt s cid = 0)
    (h3 : armedT s.table cid V = true) :
    logCnt (step s c) cid = 0 ∧ tickCnt (step s c) cid = 0 ∧
      armedT (step s c).table cid V = true := by
  cases c with
  | addTopic a =>
    have hf := addTopicStep_frame s a
    exact ArmedInv_of_frame cid V s _ hf.1 hf.2.1 hf.2.2 h1 h2 h3
  | listen t c2 =>
    have hcc : (c2 == cid) = false := by simpa [quietCmd] using hc
    unfold step stepE listenStep
    dsimp only
    cases hv : validate s.validTopics t with
    | none => exact ⟨h1, h2, h3⟩
    | some name =>
      dsimp only
      exact ArmedInv_tableOn cid V s _ name (Handler.user c2 false)
        (by simp [armedB, hasCid, hcc]) rfl rfl rfl h1 h2 h3
  | listenOnce t c2 =>
    have hcc : (c2 == cid) = false := by simpa [quietCmd] using hc
    unfold step stepE listenOnceStep
    dsimp only
    cases hv : validate s.validTopics t with
    | none => exact ⟨h1, h2, h3⟩
    | some name =>
      dsimp only
      exact ArmedInv_tableOn cid V s _ name (Handler.user c2 true)
        (by simp [armedB, hasCid, hcc]) rfl rfl rfl h1 h2 h3
  | listenFor t v c2 =>
    have hcc : (c2 == cid) = false := by simpa [quietCmd] using hc
    unfold step stepE listenForStep
    dsimp only
    cases hv : validate s.validTopics t with
    | none => exact ⟨h1, h2, h3⟩
    | some name =>
      dsimp only
      by_cases hp : isPrimitive v
      · rw [if_pos hp]
        exact ArmedInv_tableOn cid V s _ name (Handler.forValue name v c2 s.fnCtr)
          (by simp [armedB, hasCid, hcc]) rfl rfl rfl h1 h2 h3
      · rw [if_neg hp]
        exact ⟨h1, h2, h3⟩
  | say t p =>
    have hno : strictEq p V = false := by simpa [quietCmd] using hc
    have hs := sayStep_armed cid V s t p hno h3
    exact ⟨hs.1.trans h1, hs.2.1.trans h2, hs.2.2⟩
  | cancel t =>
    unfold step stepE cancelStep
    dsimp only
    cases hv : validate s.validTopics t with
    | none => exact ⟨h1, h2, h3⟩
    | some name =>
      dsimp only
      refine ⟨h1, h2, ?_⟩
      exact armedT_mono _ _ _ _ (entryMono_tableDelete s.table name) h3
  | cancelAll =>
    exact ⟨h1, h2, rfl⟩
  | request t q rid =>
    unfold step stepE requestStep
    dsimp only
    cases hv : validate s.validTopics t with
    | none =>
      dsimp only
      exact ArmedInv_of_frame cid V s _ rfl rfl rfl h1 h2 h3
    | some name =>
      dsimp only
      have hbase := ArmedInv_tableOn cid V s
        { s with
          table := tableOn s.table (mkUid s.uidCtr)
            (Handler.correlation rid (mkUid s.uidCtr))
          uidCtr := s.uidCtr + 1
          reqs := s.reqs ++ [(⟨rid, mkUid s.uidCtr, PromiseState.pending⟩ : ReqRec)]
          timers := s.timers ++ [(⟨s.now + s.requestTTL, rid, true⟩ : Timer)] }
        (mkUid s.uidCtr) (Handler.correlation rid (mkUid s.uidCtr)) rfl
        rfl rfl rfl h1 h2 h3
      have hs := sayStep_armed cid V
        { s with
          table := tableOn s.table (mkUid s.uidCtr)
            (Handler.correlation rid (mkUid s.uidCtr))
          uidCtr := s.uidCtr + 1
          reqs := s.reqs ++ [(⟨rid, mkUid s.uidCtr, PromiseState.pending⟩ : ReqRec)]
          timers := s.timers ++ [(⟨s.now + s.requestTTL, rid, true⟩ : Timer)] }
        t (JSVal.reqPayload (mkUid s.uidCtr) q) (by cases V <;> rfl) hbase.2.2
      exact ⟨hs.1.trans hbase.1, hs.2.1.trans hbase.2.1, hs.2.2⟩
  | respond tn a => simp [quietCmd] at hc
  | runTicks =>
    have hlog := ticksFold_log s.ticks { s with ticks := [] } cid
    have htick := ticksFold_ticks s.ticks { s with ticks := [] }
    have htbl := ticksFold_tbl s.ticks { s with ticks := [] } cid
    refine ⟨?_, ?_, ?_⟩
    · show logCnt (runTicksStep s) cid = 0
      unfold runTicksStep
      rw [hlog]
      have ha : logCnt { s with ticks := ([] : List Tick) } cid = logCnt s cid := rfl
      have hb : s.ticks.countP (fun t =>
          match t with | Tick.invokeUser c => c == cid | Tick.deleteKey _ => false) =
          tickCnt s cid := rfl
      rw [ha, hb, h1, h2]
    · show tickCnt (runTicksStep s) cid = 0
      unfold runTicksStep tickCnt
      rw [htick]
      rfl
    · show armedT (runTicksStep s).table cid V = true
      unfold runTicksStep
      exact armedT_mono _ _ _ _ htbl.2 h3
  | advance d =>
    exact ArmedInv_of_frame cid V s _ rfl rfl rfl h1 h2 h3

lemma run_ArmedInv (cid : Nat) (V : JSVal) (cs : List Cmd) (s : Sys)
    (hall : ∀ c ∈ cs, quietCmd cid V c = true)
    (h1 : logCnt s cid = 0) (h2 : tickCnt s cid = 0)
    (h3 : armedT s.table cid V = true) :
    logCnt (run s cs) cid = 0 ∧ tickCnt (run s cs) cid = 0 ∧
      armedT (run s cs).table cid V = true := by
  induction cs generalizing s with
  | nil => exact ⟨h1, h2, h3⟩
  | cons c rest ih =>
    have hstep := step_ArmedInv cid V s c (hall c (List.mem_cons_self _ _)) h1 h2 h3
    have h4 := ih (step s c) (fun c2 hm => hall c2 (List.mem_cons_of_mem _ hm))
      hstep.1 hstep.2.1 hstep.2.2
    unfold run at h4 ⊢
    rw [List.foldl_cons]
    exact h4

lemma shapeBT_tableOn_key (t : List (String × List Handler)) (k : String)
    (h : Handler) (cid : Nat) (hgood : goodHandlerB cid k h = true)
    (hs : shapeBT t cid = true) : shapeBT (tableOn t k h) cid = true := by
  unfold tableOn
  cases hl : t.lookup k with
  | some l =>
    unfold shapeBT at hs ⊢
    unfold updTable
    rw [List.all_eq_true] at hs ⊢
    intro kv2 hkv2
    rcases List.mem_map.mp hkv2 with ⟨kv, hkv, heq⟩
    have hold := hs kv hkv
    by_cases hk : kv.1 = k
    · rw [if_pos hk] at heq
      rw [← heq]
      rw [List.all_eq_true] at hold ⊢
      intro h2 hh2
      rcases List.mem_append.mp hh2 with h3 | h3
      · exact hold h2 h3
      · rw [List.mem_singleton.mp h3]
        dsimp only
        rw [hk]
        exact hgood
    · rw [if_neg hk] at heq
      rw [← heq]
      exact hold
  | none =>
    unfold shapeBT at hs ⊢
    rw [List.all_eq_true] at hs ⊢
    intro kv2 hkv2
    rcases List.mem_append.mp hkv2 with h3 | h3
    · exact hs kv2 h3
    · rw [List.mem_singleton.mp h3]
      rw [List.all_eq_true]
      intro h2 hh2
      rw [List.mem_singleton.mp hh2]
      exact hgood

lemma listenFor_start_inv (cid : Nat) (s0 : Sys) (t V : JSVal)
    (hfresh : fireCnt s0 cid = 0) (hnd : (s0.table.map Prod.fst).Nodup) :
    fireCnt (step s0 (Cmd.listenFor t V cid)) cid ≤ 1 ∧
      shapeBT (step s0 (Cmd.listenFor t V cid)).table cid = true := by
  have htbl : tblCntT s0.table cid = 0 := by
    unfold fireCnt at hfresh
    omega
  unfold step stepE listenForStep
  dsimp only
  cases hv : validate s0.validTopics t with
  | none =>
    refine ⟨?_, shapeBT_of_zero _ _ htbl⟩
    rw [hfresh]
    omega
  | some name =>
    dsimp only
    by_cases hp : isPrimitive V
    · rw [if_pos hp]
      constructor
      · unfold fireCnt logCnt tickCnt at hfresh ⊢
        dsimp only
        have := tblCntT_tableOn_le s0.table name
          (Handler.forValue name V cid s0.fnCtr) cid hnd
        omega
      · exact shapeBT_tableOn_key _ _ _ _
          (by simp [goodHandlerB]) (shapeBT_of_zero _ _ htbl)
    · rw [if_neg hp]
      refine ⟨?_, shapeBT_of_zero _ _ htbl⟩
      rw [hfresh]
      omega

lemma listenFor_start_armed (cid : Nat) (s0 : Sys) (t V : JSVal)
    (hfresh : fireCnt s0 cid = 0) :
    logCnt (step s0 (Cmd.listenFor t V cid)) cid = 0 ∧
    tickCnt (step s0 (Cmd.listenFor t V cid)) cid = 0 ∧
    armedT (step s0 (Cmd.listenFor t V cid)).table cid V = true := by
  have hlog : logCnt s0 cid = 0 := by
    unfold fireCnt at hfresh
    omega
  have htick : tickCnt s0 cid = 0 := by
    unfold fireCnt at hfresh
    omega
  have htbl : tblCntT s0.table cid = 0 := by
    unfold fireCnt at hfresh
    omega
  unfold step stepE listenForStep
  dsimp only
  cases hv : validate s0.validTopics t with
  | none => exact ⟨hlog, htick, armedT_of_zero _ _ _ htbl⟩
  | some name =>
    dsimp only
    by_cases hp : isPrimitive V
    · rw [if_pos hp]
      exact ArmedInv_tableOn cid V s0 _ name (Handler.forValue name V cid s0.fnCtr)
        (by simp [armedB, hasCid]) rfl rfl rfl hlog htick (armedT_of_zero _ _ _ htbl)
    · rw [if_neg hp]
      exact ⟨hlog, htick, armedT_of_zero _ _ _ htbl⟩

/-- Claim C6: a callback registered through `listenFor(T, V, C)` for a
primitive `V` fires only on payloads strictly equal to `V` and never more
than once.  Over any client activity that does not re-register the callback
and does not `respond` (a bare `emit`), the callback runs at most once; over
activity that additionally never publishes a payload strictly equal to `V`,
it never runs at all.  In the concrete matching scenario the entry is
disposed of immediately inside the matching `say` (the table entry is gone
while the deferred invocation is still queued), the callback then runs, and
an identical later publication no longer triggers it. -/
theorem c6_listenFor_fires_iff_match (s0 : Sys) (t V : JSVal) (cid : Nat)
    (cs ds : List Cmd) (hfresh : fireCnt s0 cid = 0)
    (hnd : (s0.table.map Prod.fst).Nodup)
    (hcs : ∀ c ∈ cs, allowedCmd cid c = true)
    (hds : ∀ c ∈ ds, quietCmd cid V c = true) :
    logCnt (run (step s0 (Cmd.listenFor t V cid)) cs) cid ≤ 1 ∧
    logCnt (run (step s0 (Cmd.listenFor t V cid)) ds) cid = 0 ∧
    tblCntT (step (step initTopico (Cmd.listenFor infoTok (JSVal.str "V") 7))
        (Cmd.say infoTok (JSVal.str "V"))).table 7 = 0 ∧
    tickCnt (step (step initTopico (Cmd.listenFor infoTok (JSVal.str "V") 7))
        (Cmd.say infoTok (JSVal.str "V"))) 7 = 1 ∧
    logCnt (run (step initTopico (Cmd.listenFor infoTok (JSVal.str "V") 7))
        [Cmd.say infoTok (JSVal.str "V"), Cmd.runTicks,
         Cmd.say infoTok (JSVal.str "V"), Cmd.runTicks]) 7 = 1 := by
  refine ⟨?_, ?_, by decide, by decide, by decide⟩
  · have hstart := listenFor_start_inv cid s0 t V hfresh hnd
    have hrun := run_OnceInv cid cs (step s0 (Cmd.listenFor t V cid)) hcs
      hstart.1 hstart.2
    have hb := hrun.1
    unfold fireCnt at hb
    omega
  · have hstart := listenFor_start_armed cid s0 t V hfresh
    exact (run_ArmedInv cid V ds (step s0 (Cmd.listenFor t V cid)) hds
      hstart.1 hstart.2.1 hstart.2.2).1

theorem c6_listenFor_fires_iff_match_witness :
    fireCnt initTopico 7 = 0 ∧ (initTopico.table.map Prod.fst).Nodup ∧
    logCnt (run (step initTopico (Cmd.listenFor infoTok (JSVal.str "V") 7))
      [Cmd.say infoTok (JSVal.str "V"), Cmd.runTicks,
       Cmd.say infoTok (JSVal.str "V"), Cmd.runTicks]) 7 ≤ 1 ∧
    logCnt (run (step initTopico (Cmd.listenFor infoTok (JSVal.str "V") 7))
      [Cmd.say infoTok (JSVal.str "W"), Cmd.runTicks]) 7 = 0 :=
  ⟨by decide, by decide,
    (c6_listenFor_fires_iff_match initTopico infoTok (JSVal.str "V") 7
      [Cmd.say infoTok (JSVal.str "V"), Cmd.runTicks,
       Cmd.say infoTok (JSVal.str "V"), Cmd.runTicks]
      [Cmd.say infoTok (JSVal.str "W"), Cmd.runTicks]
      (by decide) (by decide) (by decide) (by decide)).1,
    (c6_listenFor_fires_iff_match initTopico infoTok (JSVal.str "V") 7
      [Cmd.say infoTok (JSVal.str "V"), Cmd.runTicks,
       Cmd.say infoTok (JSVal.str "V"), Cmd.runTicks]
      [Cmd.say infoTok (JSVal.str "W"), Cmd.runTicks]
      (by decide) (by decide) (by decide) (by decide)).2.1⟩
